import Mathlib

/-!
Verification of the persistent fitness-quest storage engine
(`complete_database.h`): the `CompleteBTree` ordered map, the binary
string codec, and the `PersistentFitnessDatabase` orchestration layer.

The C++ code is shallowly embedded: `std::vector` becomes `List`,
`size_t` indices become `Nat`, C++ strings become `String` (or raw byte
lists `List Nat` for the codec), exceptions become `Except`/result
pairs.  Out-of-range vector accesses are undefined behaviour in the
source; each such access is modelled by a `match` on `List.get?` whose
`none` branch picks a harmless value, and every theorem stays inside
the guarded region where the source's behaviour is defined.
-/

namespace FitnessDB

/-- A B-tree node (`CompleteBTree<K,V>::BTreeNode`): a leaf flag, an
ordered list of key/value pairs, and a list of children. -/
inductive BNode (K V : Type) where
  | node (is_leaf : Bool) (keys : List (K × V)) (children : List (BNode K V))

namespace BNode

/-- The `is_leaf` field of a node. -/
def nleaf {K V : Type} : BNode K V → Bool
  | .node l _ _ => l

/-- The `keys` vector of a node. -/
def nkeys {K V : Type} : BNode K V → List (K × V)
  | .node _ ks _ => ks

/-- The `children` vector of a node. -/
def nchildren {K V : Type} : BNode K V → List (BNode K V)
  | .node _ _ cs => cs

end BNode

theorem sizeOf_lt_of_mem_children {K V : Type} {c : BNode K V} {l : Bool}
    {ks : List (K × V)} {cs : List (BNode K V)} (h : c ∈ cs) :
    sizeOf c < sizeOf (BNode.node l ks cs) := by
  have := List.sizeOf_lt_of_mem h
  simp only [BNode.node.sizeOf_spec]
  omega

theorem sizeOf_take_le {α : Type} [SizeOf α] (l : List α) (n : Nat) :
    sizeOf (l.take n) ≤ sizeOf l := by
  induction l generalizing n with
  | nil => simp [List.take]
  | cons a tl ih =>
    cases n with
    | zero => simp [List.take]; omega
    | succ m =>
      simp only [List.take, List.cons.sizeOf_spec]
      have := ih m
      omega

theorem sizeOf_drop_le {α : Type} [SizeOf α] (l : List α) (n : Nat) :
    sizeOf (l.drop n) ≤ sizeOf l := by
  induction l generalizing n with
  | nil => simp [List.drop]
  | cons a tl ih =>
    cases n with
    | zero => simp [List.drop]
    | succ m =>
      simp only [List.drop, List.cons.sizeOf_spec]
      have := ih m
      omega

namespace CompleteBTree

/-- `CompleteBTree::ORDER` (= 3). -/
abbrev ORDER : Nat := 3

/-- `CompleteBTree::MIN_KEYS` (= ORDER - 1 = 2). -/
abbrev MIN_KEYS : Nat := ORDER - 1

/-- `CompleteBTree::MAX_KEYS` (= 2 * ORDER - 1 = 5). -/
abbrev MAX_KEYS : Nat := 2 * ORDER - 1

variable {K V : Type} [LinearOrder K]

/-- `BTreeNode::find_key_position`: index of the first key with
`key ≤ keys[i].first`, or `keys.size()` if there is none. -/
def find_key_position : List (K × V) → K → Nat
  | [], _ => 0
  | kv :: tl, key => if key ≤ kv.1 then 0 else find_key_position tl key + 1

/-- `BTreeNode::insert_key`: update in place when the key at the found
position is equal, otherwise insert the pair at that position. -/
def insert_key (keys : List (K × V)) (key : K) (value : V) : List (K × V) :=
  let pos := find_key_position keys key
  match keys.get? pos with
  | some kv =>
      if kv.1 = key then keys.set pos (key, value)
      else keys.insertIdx pos (key, value)
  | none => keys.insertIdx pos (key, value)

/-- `CompleteBTree::split_child`: split the (full) child at
`child_index` around its middle key (`mid_index = MIN_KEYS = 2`); the
middle key moves up into the parent and the upper halves of the keys
and children move into a fresh right sibling inserted after the child.
The two out-of-range accesses of the source (`children[child_index]`,
`child->keys[mid_index]`) are undefined behaviour there and are
modelled as leaving the parent unchanged. -/
def split_child : BNode K V → Nat → BNode K V
  | .node pl pkeys pcs, child_index =>
    match pcs.get? child_index with
    | none => .node pl pkeys pcs
    | some (.node cl ckeys ccs) =>
      match ckeys.get? MIN_KEYS with
      | none => .node pl pkeys pcs
      | some mid_key =>
        let child : BNode K V :=
          .node cl (ckeys.take MIN_KEYS) (if cl then ccs else ccs.take (MIN_KEYS + 1))
        let new_child : BNode K V :=
          .node cl (ckeys.drop (MIN_KEYS + 1)) (if cl then [] else ccs.drop (MIN_KEYS + 1))
        .node pl (insert_key pkeys mid_key.1 mid_key.2)
          ((pcs.set child_index child).insertIdx (child_index + 1) new_child)

theorem split_child_sizeOf_lt {l : Bool} {ks : List (K × V)} {cs : List (BNode K V)}
    {i : Nat} {c : BNode K V}
    (h : c ∈ (split_child (BNode.node l ks cs) i).nchildren) :
    sizeOf c < sizeOf (BNode.node l ks cs) := by
  simp only [split_child] at h
  split at h
  · exact sizeOf_lt_of_mem_children h
  · rename_i cl ckeys ccs hg
    have hmem : BNode.node cl ckeys ccs ∈ cs := List.get?_mem hg
    have hcs : sizeOf (BNode.node cl ckeys ccs) < sizeOf (BNode.node l ks cs) :=
      sizeOf_lt_of_mem_children hmem
    split at h
    · exact sizeOf_lt_of_mem_children h
    · rename_i mid hm
      dsimp only [BNode.nchildren] at h
      rcases (List.mem_insertIdx (by
          have hi : i < cs.length := (List.get?_eq_some.mp hg).1
          simp only [List.length_set]
          omega)).mp h with hnew | hset
      · subst hnew
        have h1 : sizeOf (ckeys.drop (MIN_KEYS + 1)) ≤ sizeOf ckeys := sizeOf_drop_le _ _
        have h2 : sizeOf (if cl then ([] : List (BNode K V)) else ccs.drop (MIN_KEYS + 1)) ≤ sizeOf ccs := by
          cases cl
          · simpa using sizeOf_drop_le ccs (MIN_KEYS + 1)
          · cases ccs <;> simp [List.cons.sizeOf_spec] <;> omega
        simp only [BNode.node.sizeOf_spec] at hcs ⊢
        omega
      · rcases List.mem_or_eq_of_mem_set hset with hold | hchild
        · exact sizeOf_lt_of_mem_children hold
        · subst hchild
          have h1 : sizeOf (ckeys.take MIN_KEYS) ≤ sizeOf ckeys := sizeOf_take_le _ _
          have h2 : sizeOf (if cl then ccs else ccs.take (MIN_KEYS + 1)) ≤ sizeOf ccs := by
            cases cl
            · simpa using sizeOf_take_le ccs (MIN_KEYS + 1)
            · simp
          simp only [BNode.node.sizeOf_spec] at hcs ⊢
          omega

/-- Number of iterations of the backward scan
`while (i >= 0 && key < keys[i].first) i--;` of
`CompleteBTree::insert_non_full`, counted over the reversed key list. -/
def back_scan : List (K × V) → K → Nat
  | [], _ => 0
  | kv :: tl, key => if key < kv.1 then back_scan tl key + 1 else 0

/-- The child index `i` computed by `CompleteBTree::insert_non_full`
before descending: start at `keys.size() - 1`, walk left while
`key < keys[i].first`, then add one. -/
def upper_index (keys : List (K × V)) (key : K) : Nat :=
  keys.length - back_scan keys.reverse key

/-- The adjustment `if (key > node->keys[i].first) i++;` performed by
`CompleteBTree::insert_non_full` right after a split (the access
`keys[i]` is in range whenever the split really happened). -/
def step_index (n1 : BNode K V) (i : Nat) (key : K) : Nat :=
  match n1.nkeys.get? i with
  | some kv => if kv.1 < key then i + 1 else i
  | none => i

/-- `CompleteBTree::insert_non_full`: on a leaf, upsert into the key
list; otherwise find the descent index, split the target child first
when it is full (`MAX_KEYS` keys), step one child to the right when the
key is greater than the promoted key, and recurse into the child (the
source silently does nothing when the index is out of range). -/
def insert_non_full : BNode K V → K → V → BNode K V
  | .node leaf keys children, key, value =>
    if leaf then .node leaf (insert_key keys key value) children
    else
      let i := upper_index keys key
      match hc : children.get? i with
      | some c =>
        if c.nkeys.length = MAX_KEYS then
          let n1 := split_child (.node leaf keys children) i
          let i1 := step_index n1 i key
          match hd : n1.nchildren.get? i1 with
          | some c1 => .node n1.nleaf n1.nkeys (n1.nchildren.set i1 (insert_non_full c1 key value))
          | none => n1
        else
          .node leaf keys (children.set i (insert_non_full c key value))
      | none => .node leaf keys children
termination_by t => sizeOf t
decreasing_by
  · have h1 : c1 ∈ n1.nchildren := List.get?_mem hd
    have : n1 = split_child (.node leaf keys children) i := rfl
    rw [this] at h1
    exact split_child_sizeOf_lt h1
  · exact sizeOf_lt_of_mem_children (List.get?_mem hc)

/-- `CompleteBTree::insert`: split a full root first (the old root
becomes the single child of a fresh internal root), then insert into
the non-full root. -/
def insert (t : BNode K V) (key : K) (value : V) : BNode K V :=
  if t.nkeys.length = MAX_KEYS then
    insert_non_full (split_child (.node false [] [t]) 0) key value
  else
    insert_non_full t key value

/-- `CompleteBTree::search_node`: scan forward past keys smaller than
`key` (the loop computes exactly `find_key_position`); return the value
on an exact match, fail on a leaf, otherwise descend into child `i`. -/
def search_node : BNode K V → K → Option V
  | .node leaf keys children, key =>
    let i := find_key_position keys key
    match keys.get? i with
    | some kv =>
      if kv.1 = key then some kv.2
      else if leaf then none
      else match hc : children.get? i with
        | some c => search_node c key
        | none => none
    | none =>
      if leaf then none
      else match hc : children.get? i with
        | some c => search_node c key
        | none => none
termination_by t => sizeOf t
decreasing_by
  · exact sizeOf_lt_of_mem_children (List.get?_mem hc)
  · exact sizeOf_lt_of_mem_children (List.get?_mem hc)

/-- `CompleteBTree::search`: like `search_node` from the root but
raising `"Key not found in B-Tree"` when the key is absent. -/
def search (t : BNode K V) (key : K) : Except String V :=
  match search_node t key with
  | some v => .ok v
  | none => .error "Key not found in B-Tree"

/-- `CompleteBTree::exists`: non-raising probe. -/
def existsKey (t : BNode K V) (key : K) : Bool :=
  (search_node t key).isSome

mutual

/-- `CompleteBTree::get_all_keys`: in-order traversal; for each index
`i` first the child `i` (internal nodes only), then `keys[i].first`,
and finally the child at index `keys.size()` when it exists. -/
def get_all_keys {K V : Type} : BNode K V → List K
  | .node leaf keys children =>
    if leaf then keys.map Prod.fst else get_all_keys_go keys children
termination_by t => sizeOf t
decreasing_by
  simp only [BNode.node.sizeOf_spec]; omega

/-- The loop of `get_all_keys` on an internal node, consuming the key
and child vectors in lockstep (the source guards every child access
with `i < children.size()`, and visits only child `keys.size()` at the
end). -/
def get_all_keys_go {K V : Type} : List (K × V) → List (BNode K V) → List K
  | [], [] => []
  | [], c :: _ => get_all_keys c
  | kv :: tl, [] => kv.1 :: get_all_keys_go tl []
  | kv :: tl, c :: cs => get_all_keys c ++ kv.1 :: get_all_keys_go tl cs
termination_by ks cs => sizeOf ks + sizeOf cs
decreasing_by
  · simp only [List.cons.sizeOf_spec]
    have h1 : (0:Nat) < sizeOf c := by cases c; simp [BNode.node.sizeOf_spec]
    omega
  · simp only [List.cons.sizeOf_spec]
    omega
  · simp only [List.cons.sizeOf_spec]
    have h1 : (0:Nat) < sizeOf c := by cases c; simp [BNode.node.sizeOf_spec]
    omega
  · simp only [List.cons.sizeOf_spec]
    omega

end

/-- A fresh `CompleteBTree`: the constructor makes the root a childless
leaf. -/
def emptyTree {K V : Type} : BNode K V := .node true [] []

/-- The tree reached from a fresh `CompleteBTree` by calling
`insert(key, value)` once per list element, in list order. -/
def build (l : List (K × V)) : BNode K V :=
  l.foldl (fun t kv => insert t kv.1 kv.2) emptyTree

end CompleteBTree

open CompleteBTree

/-- The insert sequence `(10,1) … (50,5)` fills the root, `(60,6)`
forces a root split that promotes key 30 into the internal root, and
the final `insert(30, 999)` is the re-insertion of an existing key. -/
def bugSeq : List (Nat × Nat) := [(10, 1), (20, 2), (30, 3), (40, 4), (50, 5), (60, 6), (30, 999)]

/-- The tree after applying `bugSeq` to an empty `CompleteBTree`. -/
def bugTree : BNode Nat Nat := build bugSeq

unseal insert_non_full search_node in
/-- C1: the claimed round trip fails on the code.  After inserting keys
10..60 (which promotes key 30 into the internal root) and then calling
`insert(30, 999)`, `search(30)` returns the stale value 3 instead of
the most recently inserted 999: `insert_non_full` never updates a key
held by an internal node — it descends past it and adds a duplicate to
a leaf, while `search` stops at the internal copy. -/
theorem C1_search_returns_stale_value :
    search bugTree 30 = .ok 3 ∧ (3 : Nat) ≠ 999 := by
  constructor
  · rfl
  · decide

unseal insert_non_full get_all_keys get_all_keys_go in
/-- C2: upsert idempotence fails on the code.  Re-inserting key 30
(present in the internal root) grows `get_all_keys()` from 6 to 7
entries and leaves two entries with key 30 in the tree. -/
theorem C2_reinsert_grows_tree :
    (get_all_keys (build (bugSeq.take 6))).length = 6 ∧
    (get_all_keys bugTree).length = 7 ∧
    ¬ (get_all_keys bugTree).Nodup := by
  refine ⟨by rfl, by rfl, ?_⟩
  intro h
  have : get_all_keys bugTree = [10, 20, 30, 30, 40, 50, 60] := by rfl
  rw [this] at h
  simp at h

unseal insert_non_full get_all_keys get_all_keys_go in
/-- C3: sortedness of `get_all_keys()` fails on the code.  After
`bugSeq` the traversal yields `[10, 20, 30, 30, 40, 50, 60]`, which is
not strictly ascending (the key 30 appears twice: once in the internal
root and once in a leaf). -/
theorem C3_get_all_keys_not_strictly_ascending :
    get_all_keys bugTree = [10, 20, 30, 30, 40, 50, 60] ∧
    ¬ List.Sorted (· < ·) (get_all_keys bugTree) := by
  refine ⟨by rfl, ?_⟩
  intro h
  have heq : get_all_keys bugTree = [10, 20, 30, 30, 40, 50, 60] := by rfl
  rw [heq] at h
  simp [List.Sorted] at h

/-! ## Node-size bounds (claim C4) -/

namespace CompleteBTree

variable {K V : Type} [LinearOrder K]

/-- `P` holds of the key count of every node in the subtree. -/
def every_node {K V : Type} (P : Nat → Prop) : BNode K V → Prop
  | .node _ ks cs => P ks.length ∧ ∀ c ∈ cs, every_node P c
termination_by t => sizeOf t
decreasing_by exact sizeOf_lt_of_mem_children (by assumption)

theorem every_node_iff {K V : Type} (P : Nat → Prop) (l : Bool) (ks : List (K × V))
    (cs : List (BNode K V)) :
    every_node P (BNode.node l ks cs) ↔ P ks.length ∧ ∀ c ∈ cs, every_node P c := by
  rw [every_node]

theorem find_key_position_le (keys : List (K × V)) (key : K) :
    find_key_position keys key ≤ keys.length := by
  induction keys with
  | nil => simp [find_key_position]
  | cons kv tl ih =>
    rw [find_key_position]
    split
    · simp
    · simpa using ih

theorem insert_key_length_le (keys : List (K × V)) (key : K) (value : V) :
    (insert_key keys key value).length ≤ keys.length + 1 := by
  rw [insert_key]
  have hp := find_key_position_le keys key
  split
  · split
    · simp
    · rw [List.length_insertIdx _ _ hp]
  · rw [List.length_insertIdx _ _ hp]

theorem insert_key_length_ge (keys : List (K × V)) (key : K) (value : V) :
    keys.length ≤ (insert_key keys key value).length := by
  rw [insert_key]
  have hp := find_key_position_le keys key
  split
  · split
    · simp
    · rw [List.length_insertIdx _ _ hp]; omega
  · rw [List.length_insertIdx _ _ hp]; omega

/-- When the child at `child_index` exists and is full, `split_child`
takes its guarded branch: the middle key is upserted into the parent
keys and the two half-nodes replace the child. -/
theorem split_child_parts {l : Bool} {ks : List (K × V)} {cs : List (BNode K V)} {i : Nat}
    {cl : Bool} {ckeys : List (K × V)} {ccs : List (BNode K V)}
    (hc : cs.get? i = some (BNode.node cl ckeys ccs)) (hfull : ckeys.length = MAX_KEYS) :
    ∃ mid, ckeys.get? MIN_KEYS = some mid ∧
      split_child (BNode.node l ks cs) i =
        BNode.node l (insert_key ks mid.1 mid.2)
          ((cs.set i (BNode.node cl (ckeys.take MIN_KEYS)
              (if cl then ccs else ccs.take (MIN_KEYS + 1)))).insertIdx (i + 1)
            (BNode.node cl (ckeys.drop (MIN_KEYS + 1))
              (if cl then [] else ccs.drop (MIN_KEYS + 1)))) := by
  have h2 : MIN_KEYS < ckeys.length := by rw [hfull]; decide
  have hm : ckeys.get? MIN_KEYS = some (ckeys.get ⟨MIN_KEYS, h2⟩) := List.get?_eq_get h2
  refine ⟨ckeys.get ⟨MIN_KEYS, h2⟩, hm, ?_⟩
  rw [split_child]
  simp only [hc, hm]

theorem mem_set_insertIdx {α : Type} {A : List α} {i : Nat} {x y c : α} (hi : i < A.length)
    (h : c ∈ (A.set i x).insertIdx (i + 1) y) : c ∈ A ∨ c = x ∨ c = y := by
  rcases (List.mem_insertIdx (by simp only [List.length_set]; omega)).mp h with hy | hs
  · exact Or.inr (Or.inr hy)
  · rcases List.mem_or_eq_of_mem_set hs with hA | hx
    · exact Or.inl hA
    · exact Or.inr (Or.inl hx)

theorem get?_set_insertIdx {α : Type} (A : List α) (i : Nat) (x y : α) (hi : i < A.length) :
    ((A.set i x).insertIdx (i + 1) y).get? i = some x ∧
    ((A.set i x).insertIdx (i + 1) y).get? (i + 1) = some y := by
  have hlen : (A.set i x).length = A.length := by simp
  have hlen2 : ((A.set i x).insertIdx (i + 1) y).length = A.length + 1 := by
    rw [List.length_insertIdx _ _ (by omega)]
    omega
  constructor
  · rw [List.get?_eq_getElem?, List.getElem?_eq_getElem (by omega)]
    congr 1
    rw [List.getElem_insertIdx_of_lt _ _ _ _ (by omega) (by omega)]
    exact List.getElem_set_self _
  · rw [List.get?_eq_getElem?, List.getElem?_eq_getElem (by omega)]
    congr 1
    exact List.getElem_insertIdx_self _ _ _ (by omega)

/-- Structural induction over a node and all its descendants. -/
theorem BNode.inductionOn {K V : Type} {P : BNode K V → Prop}
    (h : ∀ l ks cs, (∀ c ∈ cs, P c) → P (.node l ks cs)) : ∀ t : BNode K V, P t
  | .node l ks cs => h l ks cs (fun c hc => BNode.inductionOn h c)
termination_by t => sizeOf t
decreasing_by exact sizeOf_lt_of_mem_children hc

theorem every_node_mono {K V : Type} {P Q : Nat → Prop} (hPQ : ∀ n, P n → Q n)
    (t : BNode K V) (ht : every_node P t) : every_node Q t := by
  induction t using BNode.inductionOn with
  | h l ks cs ih =>
    rw [every_node_iff] at ht ⊢
    exact ⟨hPQ _ ht.1, fun c hc => ih c hc (ht.2 c hc)⟩

theorem every_node_children {K V : Type} {P : Nat → Prop} {t : BNode K V}
    (h : every_node P t) : ∀ c ∈ t.nchildren, every_node P c := by
  obtain ⟨l, ks, cs⟩ := t
  rw [every_node_iff] at h
  exact h.2

theorem every_node_root {K V : Type} {P : Nat → Prop} {t : BNode K V}
    (h : every_node P t) : P t.nkeys.length := by
  obtain ⟨l, ks, cs⟩ := t
  rw [every_node_iff] at h
  exact h.1

theorem step_index_or (n1 : BNode K V) (i : Nat) (key : K) :
    step_index n1 i key = i ∨ step_index n1 i key = i + 1 := by
  rw [step_index]
  split
  · split
    · right; rfl
    · left; rfl
  · left; rfl

theorem insert_non_full_leaf_eq (keys : List (K × V)) (cs : List (BNode K V))
    (key : K) (value : V) :
    insert_non_full (BNode.node true keys cs) key value =
      BNode.node true (insert_key keys key value) cs := by
  conv_lhs => rw [insert_non_full]
  rw [if_pos rfl]

theorem insert_non_full_none_eq (keys : List (K × V)) (cs : List (BNode K V))
    (key : K) (value : V) (h : cs.get? (upper_index keys key) = none) :
    insert_non_full (BNode.node false keys cs) key value = BNode.node false keys cs := by
  conv_lhs => rw [insert_non_full]
  simp only [Bool.false_eq_true, if_false]
  split
  · rename_i c heq
    rw [h] at heq
    exact Option.noConfusion heq
  · rfl

theorem insert_non_full_notfull_eq (keys : List (K × V)) (cs : List (BNode K V))
    (key : K) (value : V) (c : BNode K V)
    (h : cs.get? (upper_index keys key) = some c) (hnf : c.nkeys.length ≠ MAX_KEYS) :
    insert_non_full (BNode.node false keys cs) key value =
      BNode.node false keys (cs.set (upper_index keys key) (insert_non_full c key value)) := by
  conv_lhs => rw [insert_non_full]
  simp only [Bool.false_eq_true, if_false]
  split
  · rename_i c' heq
    rw [h] at heq
    injection heq with heq
    subst heq
    rw [if_neg hnf]
  · rename_i heq
    rw [h] at heq
    exact Option.noConfusion heq

theorem insert_non_full_full_some_eq (keys : List (K × V)) (cs : List (BNode K V))
    (key : K) (value : V) (c c1 : BNode K V)
    (h : cs.get? (upper_index keys key) = some c) (hfull : c.nkeys.length = MAX_KEYS)
    (hd : (split_child (BNode.node false keys cs) (upper_index keys key)).nchildren.get?
        (step_index (split_child (BNode.node false keys cs) (upper_index keys key))
          (upper_index keys key) key) = some c1) :
    insert_non_full (BNode.node false keys cs) key value =
      BNode.node
        (split_child (BNode.node false keys cs) (upper_index keys key)).nleaf
        (split_child (BNode.node false keys cs) (upper_index keys key)).nkeys
        ((split_child (BNode.node false keys cs) (upper_index keys key)).nchildren.set
          (step_index (split_child (BNode.node false keys cs) (upper_index keys key))
            (upper_index keys key) key)
          (insert_non_full c1 key value)) := by
  conv_lhs => rw [insert_non_full]
  simp only [Bool.false_eq_true, if_false]
  split
  · rename_i c' heq
    rw [h] at heq
    injection heq with heq
    subst heq
    rw [if_pos hfull]
    split
    · rename_i c1' heq1
      rw [hd] at heq1
      injection heq1 with heq1
      subst heq1
      rfl
    · rename_i heq1
      rw [hd] at heq1
      exact Option.noConfusion heq1
  · rename_i heq
    rw [h] at heq
    exact Option.noConfusion heq

theorem insert_non_full_full_none_eq (keys : List (K × V)) (cs : List (BNode K V))
    (key : K) (value : V) (c : BNode K V)
    (h : cs.get? (upper_index keys key) = some c) (hfull : c.nkeys.length = MAX_KEYS)
    (hd : (split_child (BNode.node false keys cs) (upper_index keys key)).nchildren.get?
        (step_index (split_child (BNode.node false keys cs) (upper_index keys key))
          (upper_index keys key) key) = none) :
    insert_non_full (BNode.node false keys cs) key value =
      split_child (BNode.node false keys cs) (upper_index keys key) := by
  conv_lhs => rw [insert_non_full]
  simp only [Bool.false_eq_true, if_false]
  split
  · rename_i c' heq
    rw [h] at heq
    injection heq with heq
    subst heq
    rw [if_pos hfull]
    split
    · rename_i c1' heq1
      rw [hd] at heq1
      exact Option.noConfusion heq1
    · rfl
  · rename_i heq
    rw [h] at heq
    exact Option.noConfusion heq

theorem every_node_of_parts {K V : Type} {P : Nat → Prop} (t : BNode K V)
    (hroot : P t.nkeys.length) (hkids : ∀ c ∈ t.nchildren, every_node P c) :
    every_node P t := by
  obtain ⟨l, ks, cs⟩ := t
  rw [every_node_iff]
  exact ⟨hroot, hkids⟩

/-- Every node of the two half-nodes produced by splitting a full child
satisfies the `2 ≤ n ≤ 5` bound, provided the child did. -/
theorem split_halves_bounds {cl : Bool} {ckeys : List (K × V)} {ccs : List (BNode K V)}
    (hfull : ckeys.length = MAX_KEYS)
    (hc25 : every_node (fun n => 2 ≤ n ∧ n ≤ 5) (BNode.node cl ckeys ccs)) :
    every_node (fun n => 2 ≤ n ∧ n ≤ 5)
      (BNode.node cl (ckeys.take MIN_KEYS) (if cl then ccs else ccs.take (MIN_KEYS + 1))) ∧
    every_node (fun n => 2 ≤ n ∧ n ≤ 5)
      (BNode.node cl (ckeys.drop (MIN_KEYS + 1)) (if cl then [] else ccs.drop (MIN_KEYS + 1))) := by
  rw [every_node_iff] at hc25
  have hf : ckeys.length = 5 := hfull
  constructor
  · rw [every_node_iff]
    constructor
    · rw [List.length_take, hf]
      simp only [show MIN_KEYS = 2 from rfl]
      exact ⟨by omega, by omega⟩
    · intro d hd
      refine hc25.2 d ?_
      rcases cl with _ | _
      · simp only [Bool.false_eq_true, if_false] at hd
        exact List.take_subset _ _ hd
      · simpa using hd
  · rw [every_node_iff]
    constructor
    · rw [List.length_drop, hf]
      simp only [show MIN_KEYS + 1 = 3 from rfl]
      exact ⟨by omega, by omega⟩
    · intro d hd
      refine hc25.2 d ?_
      rcases cl with _ | _
      · simp only [Bool.false_eq_true, if_false] at hd
        exact List.drop_subset _ _ hd
      · simp at hd

/-- Bounds preservation through `insert_non_full`: starting from a
non-full node all of whose nodes hold at most `MAX_KEYS = 5` keys and
all of whose strict descendants hold at least `MIN_KEYS = 2`, the
insertion preserves both bounds and never shrinks the root key list. -/
theorem insert_non_full_bounds (t : BNode K V) (key : K) (value : V) :
    t.nkeys.length < 5 →
    every_node (fun n => n ≤ 5) t →
    (∀ c ∈ t.nchildren, every_node (fun n => 2 ≤ n ∧ n ≤ 5) c) →
    every_node (fun n => n ≤ 5) (insert_non_full t key value) ∧
    (∀ c ∈ (insert_non_full t key value).nchildren,
      every_node (fun n => 2 ≤ n ∧ n ≤ 5) c) ∧
    t.nkeys.length ≤ (insert_non_full t key value).nkeys.length := by
  induction t, key, value using insert_non_full.induct with
  | case1 keys children key value =>
    intro h5 hle hge
    rw [insert_non_full_leaf_eq]
    dsimp only [BNode.nkeys, BNode.nchildren] at h5 hge ⊢
    rw [every_node_iff] at hle
    refine ⟨?_, hge, insert_key_length_ge keys key value⟩
    rw [every_node_iff]
    exact ⟨by have := insert_key_length_le keys key value; omega, hle.2⟩
  | case5 leaf keys children key value hleaf i hd =>
    intro h5 hle hge
    rw [Bool.not_eq_true] at hleaf
    subst hleaf
    rw [insert_non_full_none_eq keys children key value hd]
    exact ⟨hle, hge, le_refl _⟩
  | case4 leaf keys children key value hleaf i c hd hnf ih =>
    intro h5 hle hge
    rw [Bool.not_eq_true] at hleaf
    subst hleaf
    rw [insert_non_full_notfull_eq keys children key value c hd hnf]
    dsimp only [BNode.nkeys, BNode.nchildren] at h5 hge ⊢
    have hcmem : c ∈ children := List.get?_mem hd
    have hc25 := hge c hcmem
    have hcle : every_node (fun n => n ≤ 5) c :=
      every_node_mono (fun n hn => hn.2) c hc25
    have hc5 : c.nkeys.length < 5 := by
      have := (every_node_root hc25).2
      have hnf5 : c.nkeys.length ≠ 5 := hnf
      omega
    obtain ⟨ih1, ih2, ih3⟩ := ih hc5 hcle (every_node_children hc25)
    have hres25 : every_node (fun n => 2 ≤ n ∧ n ≤ 5) (insert_non_full c key value) :=
      every_node_of_parts _
        ⟨le_trans (every_node_root hc25).1 ih3, every_node_root ih1⟩ ih2
    refine ⟨?_, ?_, le_refl _⟩
    · refine every_node_of_parts _ (every_node_root hle) ?_
      dsimp only [BNode.nchildren]
      intro d hdm
      rcases List.mem_or_eq_of_mem_set hdm with hold | hnew
      · exact every_node_children hle d hold
      · subst hnew; exact ih1
    · intro d hdm
      rcases List.mem_or_eq_of_mem_set hdm with hold | hnew
      · exact hge d hold
      · subst hnew; exact hres25
  | case2 leaf keys children key value hleaf i c hd hfull n1 i1 c1 hd1 ih =>
    intro h5 hle hge
    rw [Bool.not_eq_true] at hleaf
    subst hleaf
    dsimp only [BNode.nkeys, BNode.nchildren] at h5 hge
    rw [insert_non_full_full_some_eq keys children key value c c1 hd hfull hd1]
    obtain ⟨cl, ckeys, ccs⟩ := c
    have hfull' : ckeys.length = MAX_KEYS := hfull
    have hdx : children.get? (upper_index keys key) = some (BNode.node cl ckeys ccs) := hd
    obtain ⟨mid, hm, hsplit⟩ := split_child_parts hdx hfull'
    have hi : upper_index keys key < children.length := (List.get?_eq_some.mp hdx).1
    have hc25 := hge _ (List.get?_mem hdx)
    obtain ⟨hhalf1, hhalf2⟩ := split_halves_bounds hfull' hc25
    have hd1x : (split_child (BNode.node false keys children) (upper_index keys key)).nchildren.get?
        (step_index (split_child (BNode.node false keys children) (upper_index keys key))
          (upper_index keys key) key) = some c1 := hd1
    rw [hsplit] at hd1x ⊢
    dsimp only [BNode.nchildren, BNode.nkeys, BNode.nleaf] at hd1x ⊢
    have hgi := get?_set_insertIdx children (upper_index keys key)
      (BNode.node cl (ckeys.take MIN_KEYS) (if cl then ccs else ccs.take (MIN_KEYS + 1)))
      (BNode.node cl (ckeys.drop (MIN_KEYS + 1)) (if cl then [] else ccs.drop (MIN_KEYS + 1)))
      hi
    have hc1half : c1 = BNode.node cl (ckeys.take MIN_KEYS)
          (if cl then ccs else ccs.take (MIN_KEYS + 1)) ∨
        c1 = BNode.node cl (ckeys.drop (MIN_KEYS + 1))
          (if cl then [] else ccs.drop (MIN_KEYS + 1)) := by
      rcases step_index_or (BNode.node false (insert_key keys mid.1 mid.2)
          ((children.set (upper_index keys key) (BNode.node cl (ckeys.take MIN_KEYS)
            (if cl then ccs else ccs.take (MIN_KEYS + 1)))).insertIdx (upper_index keys key + 1)
            (BNode.node cl (ckeys.drop (MIN_KEYS + 1))
              (if cl then [] else ccs.drop (MIN_KEYS + 1))))) (upper_index keys key) key with hstep | hstep
      · rw [hstep] at hd1x
        rw [hgi.1] at hd1x
        injection hd1x with hd1x
        exact Or.inl hd1x.symm
      · rw [hstep] at hd1x
        rw [hgi.2] at hd1x
        injection hd1x with hd1x
        exact Or.inr hd1x.symm
    have hc125 : every_node (fun n => 2 ≤ n ∧ n ≤ 5) c1 := by
      rcases hc1half with h1 | h1 <;> rw [h1]
      · exact hhalf1
      · exact hhalf2
    have hc1len : c1.nkeys.length = 2 := by
      rcases hc1half with h1 | h1 <;> subst h1 <;> dsimp only [BNode.nkeys]
      · rw [List.length_take, hfull']
        simp [show MIN_KEYS = 2 from rfl, show MAX_KEYS = 5 from rfl]
      · rw [List.length_drop, hfull']
        simp [show MIN_KEYS + 1 = 3 from rfl, show MAX_KEYS = 5 from rfl]
    obtain ⟨ih1, ih2, ih3⟩ := ih (by omega)
      (every_node_mono (fun n hn => hn.2) c1 hc125) (every_node_children hc125)
    have hres25 : every_node (fun n => 2 ≤ n ∧ n ≤ 5) (insert_non_full c1 key value) :=
      every_node_of_parts _ ⟨by omega, every_node_root ih1⟩ ih2
    have hmemx : ∀ d ∈ (children.set (upper_index keys key) (BNode.node cl (ckeys.take MIN_KEYS)
          (if cl then ccs else ccs.take (MIN_KEYS + 1)))).insertIdx (upper_index keys key + 1)
          (BNode.node cl (ckeys.drop (MIN_KEYS + 1))
            (if cl then [] else ccs.drop (MIN_KEYS + 1))),
        every_node (fun n => 2 ≤ n ∧ n ≤ 5) d := by
      intro d hdm
      rcases mem_set_insertIdx hi hdm with hold | hx | hy
      · exact hge d hold
      · rw [hx]; exact hhalf1
      · rw [hy]; exact hhalf2
    refine ⟨?_, ?_, ?_⟩
    · refine every_node_of_parts _ ?_ ?_
      · dsimp only [BNode.nkeys]
        have := insert_key_length_le keys mid.1 mid.2
        omega
      · dsimp only [BNode.nchildren]
        intro d hdm
        rcases List.mem_or_eq_of_mem_set hdm with hold | hnew
        · exact every_node_mono (fun n hn => hn.2) d (hmemx d hold)
        · subst hnew; exact ih1
    · dsimp only [BNode.nchildren]
      intro d hdm
      rcases List.mem_or_eq_of_mem_set hdm with hold | hnew
      · exact hmemx d hold
      · subst hnew; exact hres25
    · dsimp only [BNode.nkeys]
      exact insert_key_length_ge keys mid.1 mid.2
  | case3 leaf keys children key value hleaf i c hd hfull n1 i1 hd1 =>
    intro h5 hle hge
    rw [Bool.not_eq_true] at hleaf
    subst hleaf
    obtain ⟨cl, ckeys, ccs⟩ := c
    have hfull' : ckeys.length = MAX_KEYS := hfull
    have hdx : children.get? (upper_index keys key) = some (BNode.node cl ckeys ccs) := hd
    obtain ⟨mid, hm, hsplit⟩ := split_child_parts hdx hfull'
    have hi : upper_index keys key < children.length := (List.get?_eq_some.mp hdx).1
    have hd1x : (split_child (BNode.node false keys children) (upper_index keys key)).nchildren.get?
        (step_index (split_child (BNode.node false keys children) (upper_index keys key))
          (upper_index keys key) key) = none := hd1
    rw [hsplit] at hd1x
    dsimp only [BNode.nchildren] at hd1x
    exfalso
    have hlen : ((children.set (upper_index keys key) (BNode.node cl (ckeys.take MIN_KEYS)
        (if cl then ccs else ccs.take (MIN_KEYS + 1)))).insertIdx (upper_index keys key + 1)
        (BNode.node cl (ckeys.drop (MIN_KEYS + 1))
          (if cl then [] else ccs.drop (MIN_KEYS + 1)))).length = children.length + 1 := by
      rw [List.length_insertIdx _ _ (by simp only [List.length_set]; omega)]
      simp only [List.length_set]
    have hnone := List.get?_eq_none.mp hd1x
    rcases step_index_or (BNode.node false (insert_key keys mid.1 mid.2)
        ((children.set (upper_index keys key) (BNode.node cl (ckeys.take MIN_KEYS)
          (if cl then ccs else ccs.take (MIN_KEYS + 1)))).insertIdx (upper_index keys key + 1)
          (BNode.node cl (ckeys.drop (MIN_KEYS + 1))
            (if cl then [] else ccs.drop (MIN_KEYS + 1))))) (upper_index keys key) key with hstep | hstep <;>
      rw [hstep] at hnone <;> omega

/-- Bounds preservation through a full `CompleteBTree::insert`,
including the root pre-split. -/
theorem insert_bounds (t : BNode K V) (key : K) (value : V)
    (hle : every_node (fun n => n ≤ 5) t)
    (hge : ∀ c ∈ t.nchildren, every_node (fun n => 2 ≤ n ∧ n ≤ 5) c) :
    every_node (fun n => n ≤ 5) (insert t key value) ∧
    ∀ c ∈ (insert t key value).nchildren, every_node (fun n => 2 ≤ n ∧ n ≤ 5) c := by
  rw [insert]
  by_cases hfull : t.nkeys.length = MAX_KEYS
  · rw [if_pos hfull]
    obtain ⟨l, ks, cs⟩ := t
    have hfull' : ks.length = MAX_KEYS := hfull
    have hks5 : ks.length = 5 := hfull'
    have hc0 : ([BNode.node l ks cs] : List (BNode K V)).get? 0 = some (BNode.node l ks cs) := rfl
    obtain ⟨mid, hm, hsplit⟩ :=
      @split_child_parts K V _ false [] [BNode.node l ks cs] 0 l ks cs hc0 hfull'
    rw [hsplit]
    have hc25 : every_node (fun n => 2 ≤ n ∧ n ≤ 5) (BNode.node l ks cs) :=
      every_node_of_parts _ ⟨by dsimp only [BNode.nkeys]; omega,
        by dsimp only [BNode.nkeys]; omega⟩ hge
    obtain ⟨hhalf1, hhalf2⟩ := split_halves_bounds hfull' hc25
    have hkeys1 : (insert_key ([] : List (K × V)) mid.1 mid.2) = [(mid.1, mid.2)] := rfl
    have hkids : (([BNode.node l ks cs].set 0
        (BNode.node l (ks.take MIN_KEYS) (if l then cs else cs.take (MIN_KEYS + 1)))).insertIdx
          (0 + 1) (BNode.node l (ks.drop (MIN_KEYS + 1)) (if l then [] else cs.drop (MIN_KEYS + 1)))) =
        [BNode.node l (ks.take MIN_KEYS) (if l then cs else cs.take (MIN_KEYS + 1)),
         BNode.node l (ks.drop (MIN_KEYS + 1)) (if l then [] else cs.drop (MIN_KEYS + 1))] := rfl
    rw [hkeys1, hkids]
    have hb := insert_non_full_bounds
      (BNode.node false [(mid.1, mid.2)]
        [BNode.node l (ks.take MIN_KEYS) (if l then cs else cs.take (MIN_KEYS + 1)),
         BNode.node l (ks.drop (MIN_KEYS + 1)) (if l then [] else cs.drop (MIN_KEYS + 1))])
      key value
      (by dsimp only [BNode.nkeys]; simp)
      (by
        refine every_node_of_parts _ (by dsimp only [BNode.nkeys]; simp) ?_
        dsimp only [BNode.nchildren]
        intro d hdm
        simp only [List.mem_cons, List.not_mem_nil, or_false] at hdm
        rcases hdm with rfl | rfl
        · exact every_node_mono (fun n hn => hn.2) _ hhalf1
        · exact every_node_mono (fun n hn => hn.2) _ hhalf2)
      (by
        dsimp only [BNode.nchildren]
        intro d hdm
        simp only [List.mem_cons, List.not_mem_nil, or_false] at hdm
        rcases hdm with rfl | rfl
        · exact hhalf1
        · exact hhalf2)
    exact ⟨hb.1, hb.2.1⟩
  · rw [if_neg hfull]
    have h5 : t.nkeys.length < 5 := by
      have := every_node_root hle
      have hne : t.nkeys.length ≠ 5 := hfull
      omega
    have hb := insert_non_full_bounds t key value h5 hle hge
    exact ⟨hb.1, hb.2.1⟩

/-- Bounds for every tree reachable by a sequence of inserts. -/
theorem build_bounds (l : List (K × V)) :
    every_node (fun n => n ≤ 5) (build l) ∧
    ∀ c ∈ (build l).nchildren, every_node (fun n => 2 ≤ n ∧ n ≤ 5) c := by
  have main : ∀ (l' : List (K × V)) (t : BNode K V),
      every_node (fun n => n ≤ 5) t →
      (∀ c ∈ t.nchildren, every_node (fun n => 2 ≤ n ∧ n ≤ 5) c) →
      every_node (fun n => n ≤ 5) (l'.foldl (fun t kv => insert t kv.1 kv.2) t) ∧
      ∀ c ∈ (l'.foldl (fun t kv => insert t kv.1 kv.2) t).nchildren,
        every_node (fun n => 2 ≤ n ∧ n ≤ 5) c := by
    intro l'
    induction l' with
    | nil => intro t h1 h2; simpa using ⟨h1, h2⟩
    | cons kv tl ih =>
      intro t h1 h2
      rw [List.foldl_cons]
      obtain ⟨g1, g2⟩ := insert_bounds t kv.1 kv.2 h1 h2
      exact ih _ g1 g2
  rw [build]
  refine main l emptyTree ?_ ?_
  · rw [emptyTree, every_node_iff]
    exact ⟨by simp, by simp⟩
  · intro c hc
    simp [emptyTree, BNode.nchildren] at hc

/-! ### Ordering invariant

`wfD lo hi t` says: every key of `t` lies in the closed interval
`[lo, hi]` (`none` = unbounded), the keys inside each node are strictly
ascending, a leaf has no children, and an internal node has exactly one
more child than keys, the children's key ranges separated by the node
keys.  The intervals are closed because re-inserting a key `k` that
sits in an internal node descends into the subtree to the right of `k`
and deposits a duplicate there, so a subtree may legitimately contain
its own boundary keys.  This invariant holds for every tree reachable
by `insert` from empty and is what `search_node`'s descent relies on. -/

/-- `lo ≤ k` with `none` as `-∞`. -/
def leO : Option K → K → Prop
  | none, _ => True
  | some a, k => a ≤ k

/-- `k ≤ hi` with `none` as `+∞`. -/
def geO : Option K → K → Prop
  | none, _ => True
  | some b, k => k ≤ b

/-- `lo < k` with `none` as `-∞`. -/
def ltO : Option K → K → Prop
  | none, _ => True
  | some a, k => a < k

/-- `k < hi` with `none` as `+∞`. -/
def gtO : Option K → K → Prop
  | none, _ => True
  | some b, k => k < b

mutual

/-- The ordering invariant on a subtree within closed bounds. -/
def wfD {K V : Type} [LinearOrder K] : Option K → Option K → BNode K V → Prop
  | lo, hi, .node leaf keys children =>
    List.Pairwise (fun a b => a.1 < b.1) keys ∧
    (∀ kv ∈ keys, leO lo kv.1 ∧ geO hi kv.1) ∧
    (if leaf then children = [] else wfKids lo keys children hi)
termination_by lo hi t => sizeOf t
decreasing_by simp only [BNode.node.sizeOf_spec]; omega

/-- The children of an internal node interleaved with its keys:
`c₀ ≤ k₁ ≤ c₁ ≤ … ≤ kₙ ≤ cₙ` (and in particular exactly one more
child than keys). -/
def wfKids {K V : Type} [LinearOrder K] : Option K → List (K × V) → List (BNode K V) → Option K → Prop
  | lo, [], [c], hi => wfD lo hi c
  | lo, kv :: tl, c :: cs, hi => wfD lo (some kv.1) c ∧ wfKids (some kv.1) tl cs hi
  | _, _, _, _ => False
termination_by lo ks cs hi => sizeOf ks + sizeOf cs
decreasing_by
  · simp only [List.cons.sizeOf_spec]
    have : (0:Nat) < sizeOf c := by cases c; simp [BNode.node.sizeOf_spec]
    omega
  · simp only [List.cons.sizeOf_spec]
    have : (0:Nat) < sizeOf c := by cases c; simp [BNode.node.sizeOf_spec]
    omega
  · simp only [List.cons.sizeOf_spec]
    omega

end

theorem wfD_iff (lo hi : Option K) (l : Bool) (ks : List (K × V)) (cs : List (BNode K V)) :
    wfD lo hi (BNode.node l ks cs) ↔
      List.Pairwise (fun a b => a.1 < b.1) ks ∧
      (∀ kv ∈ ks, leO lo kv.1 ∧ geO hi kv.1) ∧
      (if l then cs = [] else wfKids lo ks cs hi) := by
  rw [wfD]

theorem back_scan_le (l : List (K × V)) (key : K) : back_scan l key ≤ l.length := by
  induction l with
  | nil => simp [back_scan]
  | cons kv tl ih =>
    rw [back_scan]
    split <;> simp <;> omega

theorem back_scan_all {l : List (K × V)} {key : K} (h : ∀ kv ∈ l, key < kv.1) :
    back_scan l key = l.length := by
  induction l with
  | nil => simp [back_scan]
  | cons kv tl ih =>
    rw [back_scan, if_pos (h kv (by simp))]
    rw [ih (fun x hx => h x (by simp [hx]))]
    simp

theorem back_scan_append_one (A : List (K × V)) (x : K × V) (key : K) :
    back_scan (A ++ [x]) key =
      if back_scan A key = A.length then
        A.length + (if key < x.1 then 1 else 0)
      else back_scan A key := by
  induction A with
  | nil => simp [back_scan]
  | cons kv tl ih =>
    rw [List.cons_append, back_scan, back_scan, ih]
    by_cases hk : key < kv.1
    · simp only [if_pos hk, List.length_cons]
      by_cases he : back_scan tl key = tl.length
      · have hc2 : back_scan tl key + 1 = tl.length + 1 := by omega
        rw [if_pos he, if_pos hc2]
        split <;> omega
      · have hc2 : ¬ (back_scan tl key + 1 = tl.length + 1) := by omega
        rw [if_neg he, if_neg hc2]
    · simp only [if_neg hk, List.length_cons]
      have hc0 : ¬ ((0 : Nat) = tl.length + 1) := by omega
      rw [if_neg hc0]

theorem upper_index_nil (key : K) : upper_index ([] : List (K × V)) key = 0 := rfl

theorem upper_index_cons {kv : K × V} {tl : List (K × V)}
    (hs : List.Pairwise (fun a b => a.1 < b.1) (kv :: tl)) (key : K) :
    upper_index (kv :: tl) key =
      if kv.1 ≤ key then upper_index tl key + 1 else 0 := by
  rw [upper_index, upper_index, List.reverse_cons, back_scan_append_one]
  have hle := back_scan_le tl.reverse key
  rw [List.length_reverse] at hle
  by_cases hk : kv.1 ≤ key
  · have hnk : ¬ key < kv.1 := not_lt.mpr hk
    rw [if_pos hk]
    simp only [List.length_reverse, List.length_cons, if_neg hnk]
    by_cases he : back_scan tl.reverse key = tl.length
    · rw [if_pos he, he]
      omega
    · rw [if_neg he]
      omega
  · rw [if_neg hk]
    have hkey : key < kv.1 := lt_of_not_le hk
    have hall : ∀ x ∈ tl.reverse, key < x.1 := by
      intro x hx
      rw [List.mem_reverse] at hx
      exact lt_trans hkey ((List.pairwise_cons.mp hs).1 x hx)
    rw [back_scan_all hall]
    simp only [List.length_reverse, List.length_cons, if_pos hkey]
    split
    · omega
    · rename_i hfalse
      exact absurd trivial hfalse

theorem upper_index_le (keys : List (K × V)) (key : K) :
    upper_index keys key ≤ keys.length :=
  Nat.sub_le _ _

theorem upper_index_take_drop {keys : List (K × V)} {key : K}
    (hs : List.Pairwise (fun a b => a.1 < b.1) keys) :
    (∀ kv ∈ keys.take (upper_index keys key), kv.1 ≤ key) ∧
    (∀ kv ∈ keys.drop (upper_index keys key), key < kv.1) := by
  induction keys with
  | nil => simp
  | cons kv tl ih =>
    have hs' := List.Pairwise.of_cons hs
    rw [upper_index_cons hs]
    by_cases hk : kv.1 ≤ key
    · rw [if_pos hk]
      obtain ⟨ih1, ih2⟩ := ih hs'
      constructor
      · intro x hx
        rw [List.take_succ_cons, List.mem_cons] at hx
        rcases hx with rfl | hx
        · exact hk
        · exact ih1 x hx
      · intro x hx
        rw [List.drop_succ_cons] at hx
        exact ih2 x hx
    · rw [if_neg hk]
      refine ⟨by simp, ?_⟩
      intro x hx
      rw [List.drop_zero, List.mem_cons] at hx
      rcases hx with rfl | hx
      · exact lt_of_not_le hk
      · exact lt_trans (lt_of_not_le hk) ((List.pairwise_cons.mp hs).1 x hx)

theorem find_key_position_eq_upper {keys : List (K × V)} {key : K}
    (hs : List.Pairwise (fun a b => a.1 < b.1) keys)
    (hfresh : ∀ kv ∈ keys, kv.1 ≠ key) :
    find_key_position keys key = upper_index keys key := by
  induction keys with
  | nil => rfl
  | cons kv tl ih =>
    rw [find_key_position, upper_index_cons hs]
    rcases lt_trichotomy kv.1 key with h | h | h
    · rw [if_neg (not_le.mpr h), if_pos (le_of_lt h),
        ih (List.Pairwise.of_cons hs) (fun x hx => hfresh x (by simp [hx]))]
    · exact absurd h (hfresh kv (by simp))
    · rw [if_pos (le_of_lt h), if_neg (not_le.mpr h)]

theorem insert_key_nil (key : K) (value : V) :
    insert_key ([] : List (K × V)) key value = [(key, value)] := rfl

theorem insert_key_cons (k : K) (v : V) (tl : List (K × V)) (key : K) (value : V) :
    insert_key ((k, v) :: tl) key value =
      if key ≤ k then
        (if k = key then (key, value) :: tl else (key, value) :: (k, v) :: tl)
      else (k, v) :: insert_key tl key value := by
  by_cases hk : key ≤ k
  · rw [if_pos hk, insert_key]
    simp only [find_key_position, if_pos hk, List.get?_cons_zero]
    split
    · rfl
    · rfl
  · rw [if_neg hk, insert_key, insert_key]
    simp only [find_key_position, if_neg hk, List.get?_cons_succ]
    cases htl : tl.get? (find_key_position tl key) with
    | none => simp [htl, List.insertIdx_succ_cons]
    | some kv' =>
      simp only [htl]
      split
      · rfl
      · simp [List.insertIdx_succ_cons]

theorem insert_key_mem {keys : List (K × V)} {key : K} {value : V} :
    ∀ x ∈ insert_key keys key value, x ∈ keys ∨ x = (key, value) := by
  induction keys with
  | nil => intro x hx; rw [insert_key_nil] at hx; simp at hx; simp [hx]
  | cons kv tl ih =>
    obtain ⟨k, v⟩ := kv
    intro x hx
    rw [insert_key_cons] at hx
    split at hx
    · split at hx
      · rcases List.mem_cons.mp hx with rfl | hx
        · simp
        · simp [hx]
      · rcases List.mem_cons.mp hx with rfl | hx
        · simp
        · simp [List.mem_cons.mp hx]
    · rcases List.mem_cons.mp hx with rfl | hx
      · simp
      · rcases ih x hx with h | h
        · simp [h]
        · simp [h]

theorem insert_key_sorted {keys : List (K × V)} {key : K} {value : V}
    (hs : List.Pairwise (fun a b => a.1 < b.1) keys) :
    List.Pairwise (fun a b => a.1 < b.1) (insert_key keys key value) := by
  induction keys with
  | nil => rw [insert_key_nil]; simp
  | cons kv tl ih =>
    obtain ⟨k, v⟩ := kv
    have hhead := (List.pairwise_cons.mp hs).1
    have htl := (List.pairwise_cons.mp hs).2
    rw [insert_key_cons]
    by_cases hk : key ≤ k
    · rw [if_pos hk]
      by_cases he : k = key
      · rw [if_pos he]
        subst he
        exact List.pairwise_cons.mpr ⟨hhead, htl⟩
      · rw [if_neg he]
        refine List.pairwise_cons.mpr ⟨?_, hs⟩
        intro x hx
        rcases List.mem_cons.mp hx with rfl | hx
        · exact lt_of_le_of_ne hk (fun h => he (h.symm))
        · exact lt_of_le_of_lt hk (hhead x hx)
    · rw [if_neg hk]
      refine List.pairwise_cons.mpr ⟨?_, ih htl⟩
      intro x hx
      rcases insert_key_mem x hx with h | h
      · exact hhead x h
      · rw [h]
        exact lt_of_not_le hk

theorem insert_key_bounded {lo hi : Option K} {keys : List (K × V)} {key : K} {value : V}
    (hb : ∀ kv ∈ keys, leO lo kv.1 ∧ geO hi kv.1)
    (hlo : leO lo key) (hhi : geO hi key) :
    ∀ kv ∈ insert_key keys key value, leO lo kv.1 ∧ geO hi kv.1 := by
  intro x hx
  rcases insert_key_mem x hx with h | h
  · exact hb x h
  · rw [h]
    exact ⟨hlo, hhi⟩

/-- Lower bound of the `j`-th child of an internal node: the node's own
lower bound for the leftmost child, else the key to the child's left. -/
def lo_at (lo : Option K) (ks : List (K × V)) : Nat → Option K
  | 0 => lo
  | j + 1 =>
    match ks.get? j with
    | some kv => some kv.1
    | none => none

/-- Upper bound of the `j`-th child of an internal node: the key to the
child's right, or the node's own upper bound for the rightmost child. -/
def hi_at (hi : Option K) (ks : List (K × V)) (j : Nat) : Option K :=
  match ks.get? j with
  | some kv => some kv.1
  | none => hi

theorem lo_at_cons_succ (lo : Option K) (kv : K × V) (tl : List (K × V)) (j : Nat) :
    lo_at lo (kv :: tl) (j + 1) = lo_at (some kv.1) tl j := by
  cases j with
  | zero => simp [lo_at]
  | succ j' => simp [lo_at]

theorem hi_at_cons_succ (hi : Option K) (kv : K × V) (tl : List (K × V)) (j : Nat) :
    hi_at hi (kv :: tl) (j + 1) = hi_at hi tl j := rfl

theorem wfKids_length : ∀ {lo : Option K} {ks : List (K × V)} {cs : List (BNode K V)}
    {hi : Option K}, wfKids lo ks cs hi → cs.length = ks.length + 1 := by
  intro lo ks
  induction ks generalizing lo with
  | nil =>
    intro cs hi h
    match cs with
    | [] => simp only [wfKids] at h
    | [c] => simp
    | c1 :: c2 :: cs' => simp only [wfKids] at h
  | cons kv tl ih =>
    intro cs hi h
    match cs with
    | [] => simp only [wfKids] at h
    | c :: cs' =>
      simp only [wfKids] at h
      simp [ih h.2]

theorem wfKids_get : ∀ {lo : Option K} {ks : List (K × V)} {cs : List (BNode K V)}
    {hi : Option K} {j : Nat} {c : BNode K V},
    wfKids lo ks cs hi → cs.get? j = some c →
    wfD (lo_at lo ks j) (hi_at hi ks j) c := by
  intro lo ks
  induction ks generalizing lo with
  | nil =>
    intro cs hi j c h hg
    match cs with
    | [] => simp only [wfKids] at h
    | [c0] =>
      match j with
      | 0 =>
        simp only [List.get?_cons_zero, Option.some.injEq] at hg
        subst hg
        simp only [wfKids] at h
        simpa [lo_at, hi_at] using h
      | j' + 1 => simp at hg
    | c1 :: c2 :: cs' => simp only [wfKids] at h
  | cons kv tl ih =>
    intro cs hi j c h hg
    match cs with
    | [] => simp only [wfKids] at h
    | c0 :: cs' =>
      simp only [wfKids] at h
      match j with
      | 0 =>
        simp only [List.get?_cons_zero, Option.some.injEq] at hg
        subst hg
        simpa [lo_at, hi_at] using h.1
      | j' + 1 =>
        rw [List.get?_cons_succ] at hg
        have := ih h.2 hg
        rwa [lo_at_cons_succ, hi_at_cons_succ]

theorem wfKids_set : ∀ {lo : Option K} {ks : List (K × V)} {cs : List (BNode K V)}
    {hi : Option K} {j : Nat} {c c' : BNode K V},
    wfKids lo ks cs hi → cs.get? j = some c →
    wfD (lo_at lo ks j) (hi_at hi ks j) c' →
    wfKids lo ks (cs.set j c') hi := by
  intro lo ks
  induction ks generalizing lo with
  | nil =>
    intro cs hi j c c' h hg hw
    match cs with
    | [] => simp only [wfKids] at h
    | [c0] =>
      match j with
      | 0 =>
        simp only [List.set_cons_zero]
        simp only [wfKids] at h ⊢
        simpa [lo_at, hi_at] using hw
      | j' + 1 => simp at hg
    | c1 :: c2 :: cs' => simp only [wfKids] at h
  | cons kv tl ih =>
    intro cs hi j c c' h hg hw
    match cs with
    | [] => simp only [wfKids] at h
    | c0 :: cs' =>
      simp only [wfKids] at h
      match j with
      | 0 =>
        simp only [List.set_cons_zero]
        simp only [wfKids]
        refine ⟨?_, h.2⟩
        simpa [lo_at, hi_at] using hw
      | j' + 1 =>
        rw [List.get?_cons_succ] at hg
        rw [lo_at_cons_succ, hi_at_cons_succ] at hw
        simp only [List.set_cons_succ]
        simp only [wfKids]
        exact ⟨h.1, ih h.2 hg hw⟩

theorem wfKids_split : ∀ {lo : Option K} {ks : List (K × V)} {cs : List (BNode K V)}
    {hi : Option K} {j : Nat} {c A B : BNode K V} {m : K} {mv : V},
    wfKids lo ks cs hi → cs.get? j = some c →
    wfD (lo_at lo ks j) (some m) A →
    wfD (some m) (hi_at hi ks j) B →
    wfKids lo (ks.insertIdx j (m, mv)) ((cs.set j A).insertIdx (j + 1) B) hi := by
  intro lo ks
  induction ks generalizing lo with
  | nil =>
    intro cs hi j c A B m mv h hg hA hB
    match cs with
    | [] => simp only [wfKids] at h
    | [c0] =>
      match j with
      | 0 =>
        simp only [List.set_cons_zero, List.insertIdx_zero, List.insertIdx_succ_cons,
          List.insertIdx_zero]
        simp only [wfKids]
        refine ⟨by simpa [lo_at] using hA, ?_⟩
        simpa [hi_at] using hB
      | j' + 1 => simp at hg
    | c1 :: c2 :: cs' => simp only [wfKids] at h
  | cons kv tl ih =>
    intro cs hi j c A B m mv h hg hA hB
    match cs with
    | [] => simp only [wfKids] at h
    | c0 :: cs' =>
      simp only [wfKids] at h
      match j with
      | 0 =>
        simp only [List.set_cons_zero, List.insertIdx_zero, List.insertIdx_succ_cons,
          List.insertIdx_zero]
        simp only [wfKids]
        refine ⟨by simpa [lo_at] using hA, by simpa [hi_at] using hB, h.2⟩
      | j' + 1 =>
        rw [List.get?_cons_succ] at hg
        rw [lo_at_cons_succ] at hA
        rw [hi_at_cons_succ] at hB
        simp only [List.set_cons_succ, List.insertIdx_succ_cons]
        simp only [wfKids]
        exact ⟨h.1, ih h.2 hg hA hB⟩

theorem wfKids_take : ∀ {lo : Option K} {ks : List (K × V)} {cs : List (BNode K V)}
    {hi : Option K} {j : Nat} {kj : K × V},
    wfKids lo ks cs hi → ks.get? j = some kj →
    wfKids lo (ks.take j) (cs.take (j + 1)) (some kj.1) := by
  intro lo ks
  induction ks generalizing lo with
  | nil => intro cs hi j kj h hg; simp at hg
  | cons kv tl ih =>
    intro cs hi j kj h hg
    match cs with
    | [] => simp only [wfKids] at h
    | c0 :: cs' =>
      simp only [wfKids] at h
      match j with
      | 0 =>
        simp only [List.get?_cons_zero, Option.some.injEq] at hg
        subst hg
        simp only [List.take_zero, List.take_succ_cons, List.take_zero]
        simp only [wfKids]
        exact h.1
      | j' + 1 =>
        rw [List.get?_cons_succ] at hg
        simp only [List.take_succ_cons]
        simp only [wfKids]
        exact ⟨h.1, ih h.2 hg⟩

theorem wfKids_drop : ∀ {lo : Option K} {ks : List (K × V)} {cs : List (BNode K V)}
    {hi : Option K} {j : Nat} {kj : K × V},
    wfKids lo ks cs hi → ks.get? j = some kj →
    wfKids (some kj.1) (ks.drop (j + 1)) (cs.drop (j + 1)) hi := by
  intro lo ks
  induction ks generalizing lo with
  | nil => intro cs hi j kj h hg; simp at hg
  | cons kv tl ih =>
    intro cs hi j kj h hg
    match cs with
    | [] => simp only [wfKids] at h
    | c0 :: cs' =>
      simp only [wfKids] at h
      match j with
      | 0 =>
        simp only [List.get?_cons_zero, Option.some.injEq] at hg
        subst hg
        simp only [List.drop_succ_cons, List.drop_zero]
        exact h.2
      | j' + 1 =>
        rw [List.get?_cons_succ] at hg
        simp only [List.drop_succ_cons]
        exact ih h.2 hg

theorem leO_of_le {lo : Option K} {a b : K} (h : leO lo a) (hab : a ≤ b) : leO lo b := by
  cases lo with
  | none => trivial
  | some x => exact le_trans h hab

theorem geO_of_ge {hi : Option K} {a b : K} (h : geO hi a) (hab : b ≤ a) : geO hi b := by
  cases hi with
  | none => trivial
  | some x => exact le_trans hab h

theorem leO_of_ltO {lo : Option K} {a : K} (h : ltO lo a) : leO lo a := by
  cases lo with
  | none => trivial
  | some x => exact le_of_lt h

theorem geO_of_gtO {hi : Option K} {a : K} (h : gtO hi a) : geO hi a := by
  cases hi with
  | none => trivial
  | some x => exact le_of_lt h

theorem get?_insertIdx_lt {α : Type} :
    ∀ (l : List α) (x : α) (i j : Nat), j < i → i ≤ l.length →
      (l.insertIdx i x).get? j = l.get? j := by
  intro l
  induction l with
  | nil => intro x i j hj hi; simp at hi; omega
  | cons a tl ih =>
    intro x i j hj hi
    match i with
    | 0 => omega
    | i' + 1 =>
      rw [List.insertIdx_succ_cons]
      match j with
      | 0 => rfl
      | j' + 1 =>
        rw [List.get?_cons_succ, List.get?_cons_succ]
        exact ih x i' j' (by omega) (by simpa using hi)

theorem get?_insertIdx_self {α : Type} :
    ∀ (l : List α) (x : α) (i : Nat), i ≤ l.length →
      (l.insertIdx i x).get? i = some x := by
  intro l
  induction l with
  | nil =>
    intro x i hi
    simp at hi
    subst hi
    rfl
  | cons a tl ih =>
    intro x i hi
    match i with
    | 0 => rfl
    | i' + 1 =>
      rw [List.insertIdx_succ_cons, List.get?_cons_succ]
      exact ih x i' (by simpa using hi)

theorem get?_insertIdx_succ {α : Type} :
    ∀ (l : List α) (x : α) (i : Nat), i ≤ l.length →
      (l.insertIdx i x).get? (i + 1) = l.get? i := by
  intro l
  induction l with
  | nil =>
    intro x i hi
    simp at hi
    subst hi
    rfl
  | cons a tl ih =>
    intro x i hi
    match i with
    | 0 => rfl
    | i' + 1 =>
      rw [List.insertIdx_succ_cons, List.get?_cons_succ, List.get?_cons_succ]
      exact ih x i' (by simpa using hi)

theorem lo_at_insertIdx_self {lo : Option K} {ks : List (K × V)} {i : Nat} {x : K × V}
    (hi : i ≤ ks.length) : lo_at lo (ks.insertIdx i x) i = lo_at lo ks i := by
  match i with
  | 0 => rfl
  | j + 1 =>
    simp only [lo_at]
    rw [get?_insertIdx_lt ks x (j + 1) j (by omega) hi]

theorem hi_at_insertIdx_self {hi : Option K} {ks : List (K × V)} {i : Nat} {x : K × V}
    (h : i ≤ ks.length) : hi_at hi (ks.insertIdx i x) i = some x.1 := by
  simp only [hi_at]
  rw [get?_insertIdx_self ks x i h]

theorem lo_at_insertIdx_succ {lo : Option K} {ks : List (K × V)} {i : Nat} {x : K × V}
    (h : i ≤ ks.length) : lo_at lo (ks.insertIdx i x) (i + 1) = some x.1 := by
  simp only [lo_at]
  rw [get?_insertIdx_self ks x i h]

theorem hi_at_insertIdx_succ {hi : Option K} {ks : List (K × V)} {i : Nat} {x : K × V}
    (h : i ≤ ks.length) : hi_at hi (ks.insertIdx i x) (i + 1) = hi_at hi ks i := by
  simp only [hi_at]
  rw [get?_insertIdx_succ ks x i h]

theorem lo_at_upper_le {ks : List (K × V)} {key : K} {lo : Option K}
    (hs : List.Pairwise (fun a b => a.1 < b.1) ks) (hlo : leO lo key) :
    leO (lo_at lo ks (upper_index ks key)) key := by
  rcases hu : upper_index ks key with _ | j
  · exact hlo
  · simp only [lo_at]
    cases hg : ks.get? j with
    | none => trivial
    | some kv =>
      have hmem : kv ∈ ks.take (upper_index ks key) := by
        rw [hu]
        have : (ks.take (j + 1)).get? j = some kv := by
          rw [List.get?_take (by omega)]
          exact hg
        exact List.get?_mem this
      exact (upper_index_take_drop hs).1 kv hmem

theorem hi_at_upper_ge {ks : List (K × V)} {key : K} {hi : Option K}
    (hs : List.Pairwise (fun a b => a.1 < b.1) ks) (hhi : geO hi key) :
    geO (hi_at hi ks (upper_index ks key)) key := by
  simp only [hi_at]
  cases hg : ks.get? (upper_index ks key) with
  | none => exact hhi
  | some kv =>
    have hmem : kv ∈ ks.drop (upper_index ks key) := by
      have : (ks.drop (upper_index ks key)).get? 0 = some kv := by
        rw [List.get?_drop]
        simpa using hg
      exact List.get?_mem this
    exact le_of_lt ((upper_index_take_drop hs).2 kv hmem)

theorem take_lt_of_lo_at {m : K} :
    ∀ {ks : List (K × V)} {i : Nat} {lo : Option K},
      List.Pairwise (fun a b => a.1 < b.1) ks →
      i ≤ ks.length →
      ltO (lo_at lo ks i) m →
      ∀ kv ∈ ks.take i, kv.1 < m := by
  intro ks
  induction ks with
  | nil => simp
  | cons kv tl ih =>
    intro i lo hs hil hm x hx
    match i with
    | 0 => simp at hx
    | j + 1 =>
      rw [lo_at_cons_succ] at hm
      rw [List.take_succ_cons, List.mem_cons] at hx
      rcases hx with rfl | hx
      · match j with
        | 0 => exact hm
        | j' + 1 =>
          simp only [lo_at] at hm
          cases hg : tl.get? j' with
          | none =>
            have := List.get?_eq_none.mp hg
            simp only [List.length_cons] at hil
            omega
          | some kv' =>
            rw [hg] at hm
            exact lt_trans ((List.pairwise_cons.mp hs).1 kv' (List.get?_mem hg)) hm
      · exact ih (List.Pairwise.of_cons hs) (by simp only [List.length_cons] at hil; omega) hm x hx

theorem drop_gt_of_hi_at {m : K} :
    ∀ {ks : List (K × V)} {i : Nat} {hi : Option K},
      List.Pairwise (fun a b => a.1 < b.1) ks →
      gtO (hi_at hi ks i) m →
      ∀ kv ∈ ks.drop i, m < kv.1 := by
  intro ks
  induction ks with
  | nil => simp
  | cons kv0 tl ih =>
    intro i hi hs hm x hx
    match i with
    | 0 =>
      have h0 : m < kv0.1 := by simpa [hi_at] using hm
      rw [List.drop_zero, List.mem_cons] at hx
      rcases hx with rfl | hx
      · exact h0
      · exact lt_trans h0 ((List.pairwise_cons.mp hs).1 x hx)
    | j + 1 =>
      rw [hi_at_cons_succ] at hm
      rw [List.drop_succ_cons] at hx
      exact ih (List.Pairwise.of_cons hs) hm x hx

theorem leO_of_ltO_lo_at {lo : Option K} {ks : List (K × V)} {i : Nat} {m : K}
    (hb : ∀ kv ∈ ks, leO lo kv.1) (hil : i ≤ ks.length)
    (h : ltO (lo_at lo ks i) m) : leO lo m := by
  match i with
  | 0 => exact leO_of_ltO h
  | j + 1 =>
    simp only [lo_at] at h
    cases hg : ks.get? j with
    | none =>
      have := List.get?_eq_none.mp hg
      omega
    | some kv =>
      rw [hg] at h
      exact leO_of_le (hb kv (List.get?_mem hg)) (le_of_lt h)

theorem geO_of_gtO_hi_at {hi : Option K} {ks : List (K × V)} {i : Nat} {m : K}
    (hb : ∀ kv ∈ ks, geO hi kv.1)
    (h : gtO (hi_at hi ks i) m) : geO hi m := by
  simp only [hi_at] at h
  cases hg : ks.get? i with
  | none => rw [hg] at h; exact geO_of_gtO h
  | some kv =>
    rw [hg] at h
    exact geO_of_ge (hb kv (List.get?_mem hg)) (le_of_lt h)

theorem insert_key_fresh {keys : List (K × V)} {key : K} {value : V}
    (hfresh : ∀ kv ∈ keys, kv.1 ≠ key) :
    insert_key keys key value = keys.insertIdx (find_key_position keys key) (key, value) := by
  simp only [insert_key]
  split
  · rename_i kv hg
    rw [if_neg (hfresh kv (List.get?_mem hg))]
  · rfl

theorem fkp_eq_of_between {m : K} :
    ∀ {ks : List (K × V)} {j : Nat},
      j ≤ ks.length →
      (∀ kv ∈ ks.take j, kv.1 < m) →
      (∀ kv ∈ ks.drop j, m ≤ kv.1) →
      find_key_position ks m = j := by
  intro ks
  induction ks with
  | nil =>
    intro j hj _ _
    simp at hj
    subst hj
    rfl
  | cons kv tl ih =>
    intro j hj h1 h2
    match j with
    | 0 =>
      rw [find_key_position, if_pos (h2 kv (by simp))]
    | j' + 1 =>
      rw [find_key_position,
        if_neg (not_le.mpr (h1 kv (by rw [List.take_succ_cons]; simp)))]
      rw [ih (by simpa using hj)
        (fun x hx => h1 x (by rw [List.take_succ_cons]; simp [hx]))
        (fun x hx => h2 x (by rwa [List.drop_succ_cons]))]

theorem drop_eq_cons_of_get? {α : Type} :
    ∀ {l : List α} {j : Nat} {a : α}, l.get? j = some a →
      l.drop j = a :: l.drop (j + 1) := by
  intro l
  induction l with
  | nil => intro j a h; simp at h
  | cons b tl ih =>
    intro j a h
    match j with
    | 0 =>
      simp only [List.get?_cons_zero, Option.some.injEq] at h
      subst h
      simp
    | j' + 1 =>
      rw [List.get?_cons_succ] at h
      rw [List.drop_succ_cons, List.drop_succ_cons]
      exact ih h

/-- The promoted middle key of a full child lies strictly between the
child's bounds (the two keys below it and the two keys above it inside
the child force strictness). -/
theorem mid_strict_bounds {lo' hi' : Option K} {ckeys : List (K × V)} {mid : K × V}
    (hs : List.Pairwise (fun a b => a.1 < b.1) ckeys)
    (hb : ∀ kv ∈ ckeys, leO lo' kv.1 ∧ geO hi' kv.1)
    (hm : ckeys.get? MIN_KEYS = some mid)
    (hlen : ckeys.length = MAX_KEYS) :
    ltO lo' mid.1 ∧ gtO hi' mid.1 := by
  have hlen5 : ckeys.length = 5 := hlen
  have hd2 : ckeys.drop MIN_KEYS = mid :: ckeys.drop (MIN_KEYS + 1) := drop_eq_cons_of_get? hm
  have hsplitlist := (List.take_append_drop MIN_KEYS ckeys).symm
  have hpw : List.Pairwise (fun a b : K × V => a.1 < b.1)
      (ckeys.take MIN_KEYS ++ ckeys.drop MIN_KEYS) := by
    rwa [List.take_append_drop]
  rw [List.pairwise_append] at hpw
  obtain ⟨hpw1, hpw2, hcross⟩ := hpw
  constructor
  · cases hlo : lo' with
    | none => trivial
    | some a =>
      cases hg0 : ckeys.get? 0 with
      | none =>
        have := List.get?_eq_none.mp hg0
        omega
      | some k0 =>
        have hk0 : k0 ∈ ckeys.take MIN_KEYS := by
          have htk : (ckeys.take MIN_KEYS).get? 0 = some k0 := by
            rw [List.get?_take (by rw [show MIN_KEYS = 2 from rfl]; omega)]
            exact hg0
          exact List.get?_mem htk
        have h1 : a ≤ k0.1 := by
          have := (hb k0 (List.get?_mem hg0)).1
          rwa [hlo] at this
        have h2 : k0.1 < mid.1 := hcross k0 hk0 mid (by rw [hd2]; simp)
        exact lt_of_le_of_lt h1 h2
  · cases hhi : hi' with
    | none => trivial
    | some b =>
      cases hg4 : ckeys.get? (MIN_KEYS + 1) with
      | none =>
        have := List.get?_eq_none.mp hg4
        rw [show MIN_KEYS + 1 = 3 from rfl] at this
        omega
      | some k4 =>
        have hk4 : k4 ∈ ckeys.drop (MIN_KEYS + 1) := by
          have htk : (ckeys.drop (MIN_KEYS + 1)).get? 0 = some k4 := by
            rw [List.get?_drop]
            simpa using hg4
          exact List.get?_mem htk
        have h1 : mid.1 < k4.1 := by
          rw [hd2] at hpw2
          exact (List.pairwise_cons.mp hpw2).1 k4 hk4
        have h2 : k4.1 ≤ b := by
          have := (hb k4 (List.drop_subset _ _ hk4)).2
          rwa [hhi] at this
        exact lt_of_lt_of_le h1 h2

/-- The two halves produced by splitting a full child are well-formed
on the two halves of the child's interval, separated by the promoted
middle key. -/
theorem split_piece_wf {lo' hi' : Option K} {cl : Bool} {ckeys : List (K × V)}
    {ccs : List (BNode K V)} {mid : K × V}
    (hw : wfD lo' hi' (BNode.node cl ckeys ccs))
    (hm : ckeys.get? MIN_KEYS = some mid)
    (hlen : ckeys.length = MAX_KEYS) :
    wfD lo' (some mid.1)
      (BNode.node cl (ckeys.take MIN_KEYS) (if cl then ccs else ccs.take (MIN_KEYS + 1))) ∧
    wfD (some mid.1) hi'
      (BNode.node cl (ckeys.drop (MIN_KEYS + 1)) (if cl then [] else ccs.drop (MIN_KEYS + 1))) := by
  rw [wfD_iff] at hw
  obtain ⟨hs, hb, hkid⟩ := hw
  have hd2 : ckeys.drop MIN_KEYS = mid :: ckeys.drop (MIN_KEYS + 1) := drop_eq_cons_of_get? hm
  have hpw : List.Pairwise (fun a b : K × V => a.1 < b.1)
      (ckeys.take MIN_KEYS ++ ckeys.drop MIN_KEYS) := by
    rwa [List.take_append_drop]
  rw [List.pairwise_append] at hpw
  obtain ⟨hpw1, hpw2, hcross⟩ := hpw
  rw [hd2] at hpw2
  have hpw3 := List.pairwise_cons.mp hpw2
  constructor
  · rw [wfD_iff]
    refine ⟨hpw1, ?_, ?_⟩
    · intro kv hkv
      refine ⟨(hb kv (List.take_subset _ _ hkv)).1, ?_⟩
      have : kv.1 < mid.1 := hcross kv hkv mid (by rw [hd2]; simp)
      exact le_of_lt this
    · cases cl with
      | true =>
        simp only [if_pos rfl] at hkid ⊢
        exact hkid
      | false =>
        simp only [Bool.false_eq_true, if_false] at hkid ⊢
        exact wfKids_take hkid hm
  · rw [wfD_iff]
    refine ⟨hpw2.of_cons, ?_, ?_⟩
    · intro kv hkv
      refine ⟨?_, (hb kv (List.drop_subset _ _ hkv)).2⟩
      exact le_of_lt (hpw3.1 kv hkv)
    · cases cl with
      | true => simp
      | false =>
        simp only [Bool.false_eq_true, if_false] at hkid ⊢
        exact wfKids_drop hkid hm

/-- `insert_non_full` preserves the ordering invariant on any subtree,
for any inserted key inside the subtree's closed interval (duplicates
of existing keys included). -/
theorem insert_non_full_wf (t : BNode K V) (key : K) (value : V) :
    ∀ lo hi, wfD lo hi t → leO lo key → geO hi key →
      wfD lo hi (insert_non_full t key value) := by
  induction t, key, value using insert_non_full.induct with
  | case1 keys children key value =>
    intro lo hi hw hlo hhi
    rw [insert_non_full_leaf_eq]
    rw [wfD_iff] at hw ⊢
    obtain ⟨hs, hb, hc⟩ := hw
    exact ⟨insert_key_sorted hs, insert_key_bounded hb hlo hhi, hc⟩
  | case5 leaf keys children key value hleaf i hd =>
    intro lo hi hw hlo hhi
    rw [Bool.not_eq_true] at hleaf
    subst hleaf
    rw [insert_non_full_none_eq keys children key value hd]
    exact hw
  | case4 leaf keys children key value hleaf i c hd hnf ih =>
    intro lo hi hw hlo hhi
    rw [Bool.not_eq_true] at hleaf
    subst hleaf
    rw [insert_non_full_notfull_eq keys children key value c hd hnf]
    rw [wfD_iff] at hw ⊢
    obtain ⟨hs, hb, hk⟩ := hw
    simp only [Bool.false_eq_true, if_false] at hk ⊢
    refine ⟨hs, hb, ?_⟩
    have hdx : children.get? (upper_index keys key) = some c := hd
    have hcw := wfKids_get hk hdx
    exact wfKids_set hk hdx
      (ih _ _ hcw (lo_at_upper_le hs hlo) (hi_at_upper_ge hs hhi))
  | case2 leaf keys children key value hleaf i c hd hfull n1 i1 c1 hd1 ih =>
    intro lo hi hw hlo hhi
    rw [Bool.not_eq_true] at hleaf
    subst hleaf
    rw [insert_non_full_full_some_eq keys children key value c c1 hd hfull hd1]
    rw [wfD_iff] at hw
    obtain ⟨hs, hb, hk⟩ := hw
    simp only [Bool.false_eq_true, if_false] at hk
    obtain ⟨cl, ckeys, ccs⟩ := c
    have hfull' : ckeys.length = MAX_KEYS := hfull
    have hdx : children.get? (upper_index keys key) = some (BNode.node cl ckeys ccs) := hd
    obtain ⟨mid, hm, hsplit⟩ := split_child_parts hdx hfull'
    have hui_le : upper_index keys key ≤ keys.length := upper_index_le keys key
    have hclt : upper_index keys key < children.length := (List.get?_eq_some.mp hdx).1
    have hcw := wfKids_get hk hdx
    have hcwd := hcw
    rw [wfD_iff] at hcwd
    obtain ⟨hcs, hcb, hck⟩ := hcwd
    obtain ⟨hml, hmh⟩ := mid_strict_bounds hcs (fun kv hkv => hcb kv hkv) hm hfull'
    obtain ⟨hA, hB⟩ := split_piece_wf hcw hm hfull'
    have htake : ∀ kv ∈ keys.take (upper_index keys key), kv.1 < mid.1 :=
      take_lt_of_lo_at hs hui_le hml
    have hdrop : ∀ kv ∈ keys.drop (upper_index keys key), mid.1 < kv.1 :=
      drop_gt_of_hi_at hs hmh
    have hfresh : ∀ kv ∈ keys, kv.1 ≠ mid.1 := by
      intro kv hkv
      rw [← List.take_append_drop (upper_index keys key) keys, List.mem_append] at hkv
      rcases hkv with hkv | hkv
      · exact ne_of_lt (htake kv hkv)
      · exact ne_of_gt (hdrop kv hkv)
    have hfkp : find_key_position keys mid.1 = upper_index keys key :=
      fkp_eq_of_between hui_le htake (fun kv hkv => le_of_lt (hdrop kv hkv))
    have hkeys' : insert_key keys mid.1 mid.2 =
        keys.insertIdx (upper_index keys key) (mid.1, mid.2) := by
      rw [insert_key_fresh hfresh, hfkp]
    have hd1x : ((children.set (upper_index keys key)
          (BNode.node cl (ckeys.take MIN_KEYS)
            (if cl then ccs else ccs.take (MIN_KEYS + 1)))).insertIdx
          (upper_index keys key + 1)
          (BNode.node cl (ckeys.drop (MIN_KEYS + 1))
            (if cl then [] else ccs.drop (MIN_KEYS + 1)))).get?
        (step_index (BNode.node false
            (keys.insertIdx (upper_index keys key) (mid.1, mid.2))
            ((children.set (upper_index keys key)
              (BNode.node cl (ckeys.take MIN_KEYS)
                (if cl then ccs else ccs.take (MIN_KEYS + 1)))).insertIdx
              (upper_index keys key + 1)
              (BNode.node cl (ckeys.drop (MIN_KEYS + 1))
                (if cl then [] else ccs.drop (MIN_KEYS + 1)))))
          (upper_index keys key) key) = some c1 := by
      have h0 : (split_child (BNode.node false keys children) (upper_index keys key)).nchildren.get?
          (step_index (split_child (BNode.node false keys children) (upper_index keys key))
            (upper_index keys key) key) = some c1 := hd1
      rw [hsplit] at h0
      dsimp only [BNode.nchildren] at h0
      rwa [hkeys'] at h0
    rw [hsplit]
    dsimp only [BNode.nleaf, BNode.nkeys, BNode.nchildren]
    rw [hkeys']
    have hstep : step_index (BNode.node false
        (keys.insertIdx (upper_index keys key) (mid.1, mid.2))
        ((children.set (upper_index keys key)
          (BNode.node cl (ckeys.take MIN_KEYS)
            (if cl then ccs else ccs.take (MIN_KEYS + 1)))).insertIdx
          (upper_index keys key + 1)
          (BNode.node cl (ckeys.drop (MIN_KEYS + 1))
            (if cl then [] else ccs.drop (MIN_KEYS + 1)))))
        (upper_index keys key) key =
        if mid.1 < key then upper_index keys key + 1 else upper_index keys key := by
      rw [step_index]
      dsimp only [BNode.nkeys]
      rw [get?_insertIdx_self keys (mid.1, mid.2) _ hui_le]
    have hkids' := @wfKids_split K V _ lo keys children hi (upper_index keys key)
      (BNode.node cl ckeys ccs)
      (BNode.node cl (ckeys.take MIN_KEYS) (if cl then ccs else ccs.take (MIN_KEYS + 1)))
      (BNode.node cl (ckeys.drop (MIN_KEYS + 1)) (if cl then [] else ccs.drop (MIN_KEYS + 1)))
      mid.1 mid.2 hk hdx hA hB
    have hgi := get?_set_insertIdx children (upper_index keys key)
      (BNode.node cl (ckeys.take MIN_KEYS) (if cl then ccs else ccs.take (MIN_KEYS + 1)))
      (BNode.node cl (ckeys.drop (MIN_KEYS + 1)) (if cl then [] else ccs.drop (MIN_KEYS + 1)))
      hclt
    rw [hstep] at hd1x ⊢
    rw [wfD_iff]
    refine ⟨by rw [← hkeys']; exact insert_key_sorted hs, ?_, ?_⟩
    · rw [← hkeys']
      refine insert_key_bounded hb ?_ ?_
      · exact leO_of_ltO_lo_at (fun kv hkv => (hb kv hkv).1) hui_le hml
      · exact geO_of_gtO_hi_at (fun kv hkv => (hb kv hkv).2) hmh
    · simp only [Bool.false_eq_true, if_false]
      by_cases hc : mid.1 < key
      · rw [if_pos hc] at hd1x ⊢
        rw [hgi.2] at hd1x
        injection hd1x with hd1x
        subst hd1x
        exact wfKids_set hkids' hgi.2 (by
          rw [lo_at_insertIdx_succ hui_le, hi_at_insertIdx_succ hui_le]
          exact ih _ _ hB (le_of_lt hc) (hi_at_upper_ge hs hhi))
      · rw [if_neg hc] at hd1x ⊢
        rw [hgi.1] at hd1x
        injection hd1x with hd1x
        subst hd1x
        exact wfKids_set hkids' hgi.1 (by
          rw [lo_at_insertIdx_self hui_le, hi_at_insertIdx_self hui_le]
          exact ih _ _ hA (lo_at_upper_le hs hlo) (not_lt.mp hc))
  | case3 leaf keys children key value hleaf i c hd hfull n1 i1 hd1 =>
    intro lo hi hw hlo hhi
    rw [Bool.not_eq_true] at hleaf
    subst hleaf
    obtain ⟨cl, ckeys, ccs⟩ := c
    have hfull' : ckeys.length = MAX_KEYS := hfull
    have hdx : children.get? (upper_index keys key) = some (BNode.node cl ckeys ccs) := hd
    obtain ⟨mid, hm, hsplit⟩ := split_child_parts hdx hfull'
    have hclt : upper_index keys key < children.length := (List.get?_eq_some.mp hdx).1
    have hd1x : (split_child (BNode.node false keys children) (upper_index keys key)).nchildren.get?
        (step_index (split_child (BNode.node false keys children) (upper_index keys key))
          (upper_index keys key) key) = none := hd1
    rw [hsplit] at hd1x
    dsimp only [BNode.nchildren] at hd1x
    exfalso
    have hlen : ((children.set (upper_index keys key)
        (BNode.node cl (ckeys.take MIN_KEYS)
          (if cl then ccs else ccs.take (MIN_KEYS + 1)))).insertIdx
        (upper_index keys key + 1)
        (BNode.node cl (ckeys.drop (MIN_KEYS + 1))
          (if cl then [] else ccs.drop (MIN_KEYS + 1)))).length = children.length + 1 := by
      rw [List.length_insertIdx _ _ (by simp only [List.length_set]; omega)]
      simp only [List.length_set]
    have hnone := List.get?_eq_none.mp hd1x
    rcases step_index_or (BNode.node false (insert_key keys mid.1 mid.2)
        ((children.set (upper_index keys key)
          (BNode.node cl (ckeys.take MIN_KEYS)
            (if cl then ccs else ccs.take (MIN_KEYS + 1)))).insertIdx
          (upper_index keys key + 1)
          (BNode.node cl (ckeys.drop (MIN_KEYS + 1))
            (if cl then [] else ccs.drop (MIN_KEYS + 1)))))
        (upper_index keys key) key with hstep | hstep <;>
      rw [hstep] at hnone <;> omega

/-- A full `CompleteBTree::insert` (root pre-split included) preserves
the ordering invariant. -/
theorem insert_wf (t : BNode K V) (key : K) (value : V) (hw : wfD none none t) :
    wfD none none (insert t key value) := by
  rw [insert]
  by_cases hfull : t.nkeys.length = MAX_KEYS
  · rw [if_pos hfull]
    obtain ⟨l, ks, cs⟩ := t
    have hfull' : ks.length = MAX_KEYS := hfull
    have hc0 : ([BNode.node l ks cs] : List (BNode K V)).get? 0 = some (BNode.node l ks cs) := rfl
    obtain ⟨mid, hm, hsplit⟩ :=
      @split_child_parts K V _ false [] [BNode.node l ks cs] 0 l ks cs hc0 hfull'
    rw [hsplit]
    rw [show insert_key ([] : List (K × V)) mid.1 mid.2 = [(mid.1, mid.2)] from rfl]
    obtain ⟨hA, hB⟩ := split_piece_wf hw hm hfull'
    refine insert_non_full_wf _ key value none none ?_ trivial trivial
    rw [wfD_iff]
    refine ⟨by simp, by intro kv _; exact ⟨trivial, trivial⟩, ?_⟩
    simp only [Bool.false_eq_true, if_false]
    have hl : (([BNode.node l ks cs].set 0
        (BNode.node l (ks.take MIN_KEYS) (if l then cs else cs.take (MIN_KEYS + 1)))).insertIdx
          (0 + 1)
          (BNode.node l (ks.drop (MIN_KEYS + 1)) (if l then [] else cs.drop (MIN_KEYS + 1)))) =
        [BNode.node l (ks.take MIN_KEYS) (if l then cs else cs.take (MIN_KEYS + 1)),
         BNode.node l (ks.drop (MIN_KEYS + 1)) (if l then [] else cs.drop (MIN_KEYS + 1))] := rfl
    rw [hl]
    simp only [wfKids]
    exact ⟨hA, hB⟩
  · rw [if_neg hfull]
    exact insert_non_full_wf t key value none none hw trivial trivial

/-- Every tree built by a sequence of inserts from the empty tree
satisfies the ordering invariant. -/
theorem build_wf (l : List (K × V)) : wfD none none (build l) := by
  have main : ∀ (l' : List (K × V)) (t : BNode K V), wfD none none t →
      wfD none none (l'.foldl (fun t kv => insert t kv.1 kv.2) t) := by
    intro l'
    induction l' with
    | nil => intro t h; simpa using h
    | cons kv tl ih =>
      intro t h
      rw [List.foldl_cons]
      exact ih _ (insert_wf t kv.1 kv.2 h)
  rw [build]
  refine main l emptyTree ?_
  rw [emptyTree, wfD_iff]
  exact ⟨by simp, by simp, by simp⟩

/-- Structural well-shapedness: a leaf has no children and an internal
node has exactly one more child than keys, recursively. -/
def good_shape {K V : Type} : BNode K V → Prop
  | .node leaf keys children =>
    (if leaf then children = [] else children.length = keys.length + 1) ∧
    ∀ c ∈ children, good_shape c
termination_by t => sizeOf t
decreasing_by exact sizeOf_lt_of_mem_children (by assumption)

theorem good_shape_iff (l : Bool) (ks : List (K × V)) (cs : List (BNode K V)) :
    good_shape (BNode.node l ks cs) ↔
      (if l then cs = [] else cs.length = ks.length + 1) ∧
      ∀ c ∈ cs, good_shape c := by
  rw [good_shape]

theorem wfD_good_shape (t : BNode K V) : ∀ lo hi, wfD lo hi t → good_shape t := by
  induction t using BNode.inductionOn with
  | h l ks cs ih =>
    intro lo hi hw
    rw [wfD_iff] at hw
    obtain ⟨hs, hb, hk⟩ := hw
    rw [good_shape_iff]
    cases l with
    | true =>
      simp only [if_pos rfl] at hk ⊢
      subst hk
      exact ⟨rfl, by simp⟩
    | false =>
      simp only [Bool.false_eq_true, if_false] at hk ⊢
      refine ⟨wfKids_length hk, ?_⟩
      intro c hc
      obtain ⟨j, hj⟩ := List.get_of_mem hc
      have hj' : cs.get? j = some c := by
        rw [List.get?_eq_get j.2]
        exact congrArg some hj
      exact ih c hc _ _ (wfKids_get hk hj')

/-- `CompleteBTree::range_query`: collect, node by node (the node's own
keys first, then every child unconditionally when the node is internal),
the values whose key lies in the inclusive bound `[start, stop]`.
`attach` is the identity embedding used only for termination. -/
def range_query {K V : Type} [LinearOrder K] : BNode K V → K → K → List V
  | .node leaf keys children, start, stop =>
    (keys.filter (fun kv => decide (start ≤ kv.1 ∧ kv.1 ≤ stop))).map Prod.snd ++
    (if leaf then []
     else (children.attach.map (fun c => range_query c.1 start stop)).flatten)
termination_by t => sizeOf t
decreasing_by exact sizeOf_lt_of_mem_children c.2

theorem range_query_eq (l : Bool) (ks : List (K × V)) (cs : List (BNode K V))
    (start stop : K) :
    range_query (BNode.node l ks cs) start stop =
      (ks.filter (fun kv => decide (start ≤ kv.1 ∧ kv.1 ≤ stop))).map Prod.snd ++
      (if l then [] else (cs.map (fun c => range_query c start stop)).flatten) := by
  rw [range_query]
  congr 1
  cases l with
  | true => rfl
  | false =>
    simp only [Bool.false_eq_true, if_false]
    rw [List.attach_map_val cs (fun c => range_query c start stop)]

/-- All key/value pairs of the tree, collected in the same node order
as `range_query` visits them (`attach` is for termination only). -/
def all_pairs {K V : Type} : BNode K V → List (K × V)
  | .node leaf keys children =>
    keys ++ (if leaf then [] else (children.attach.map (fun c => all_pairs c.1)).flatten)
termination_by t => sizeOf t
decreasing_by exact sizeOf_lt_of_mem_children c.2

theorem all_pairs_eq (l : Bool) (ks : List (K × V)) (cs : List (BNode K V)) :
    all_pairs (BNode.node l ks cs) =
      ks ++ (if l then [] else (cs.map all_pairs).flatten) := by
  rw [all_pairs]
  congr 1
  cases l with
  | true => rfl
  | false =>
    simp only [Bool.false_eq_true, if_false]
    rw [List.attach_map_val cs all_pairs]

mutual

/-- The key/value pairs of the tree enumerated in the order of the
source's `get_all_keys` in-order traversal; this is the "brute-force
list of all stored pairs" the spec's range-query test compares
against. -/
def stored_pairs {K V : Type} : BNode K V → List (K × V)
  | .node leaf keys children =>
    if leaf then keys else stored_pairs_go keys children
termination_by t => sizeOf t
decreasing_by
  simp only [BNode.node.sizeOf_spec]; omega

/-- The in-order interleaving of children and keys used by
`stored_pairs`, mirroring `get_all_keys_go`. -/
def stored_pairs_go {K V : Type} : List (K × V) → List (BNode K V) → List (K × V)
  | [], [] => []
  | [], c :: _ => stored_pairs c
  | kv :: tl, [] => kv :: stored_pairs_go tl []
  | kv :: tl, c :: cs => stored_pairs c ++ kv :: stored_pairs_go tl cs
termination_by ks cs => sizeOf ks + sizeOf cs
decreasing_by
  · simp only [List.cons.sizeOf_spec]
    have h1 : (0:Nat) < sizeOf c := by cases c; simp [BNode.node.sizeOf_spec]
    omega
  · simp only [List.cons.sizeOf_spec]
    omega
  · simp only [List.cons.sizeOf_spec]
    have h1 : (0:Nat) < sizeOf c := by cases c; simp [BNode.node.sizeOf_spec]
    omega
  · simp only [List.cons.sizeOf_spec]
    omega

end

theorem flatten_filter_map_helper (start stop : K) :
    ∀ (cs : List (BNode K V)),
      (∀ c ∈ cs, range_query c start stop =
        ((all_pairs c).filter (fun kv => decide (start ≤ kv.1 ∧ kv.1 ≤ stop))).map Prod.snd) →
      (cs.map (fun c => range_query c start stop)).flatten =
        (((cs.map all_pairs).flatten).filter
          (fun kv => decide (start ≤ kv.1 ∧ kv.1 ≤ stop))).map Prod.snd := by
  intro cs
  induction cs with
  | nil => intro _; simp
  | cons c cs' ih =>
    intro h
    rw [List.map_cons, List.flatten_cons, List.map_cons, List.flatten_cons,
      List.filter_append, List.map_append]
    rw [h c (by simp), ih (fun d hd => h d (by simp [hd]))]

/-- `range_query` is literally the in-range filtering of `all_pairs`. -/
theorem range_query_eq_filter (t : BNode K V) (start stop : K) :
    range_query t start stop =
      ((all_pairs t).filter (fun kv => decide (start ≤ kv.1 ∧ kv.1 ≤ stop))).map Prod.snd := by
  induction t using BNode.inductionOn with
  | h l ks cs ih =>
    rw [range_query_eq, all_pairs_eq, List.filter_append, List.map_append]
    congr 1
    cases l with
    | true => simp
    | false =>
      simp only [Bool.false_eq_true, if_false]
      exact flatten_filter_map_helper start stop cs
        (fun c hc => ih c hc)

theorem perm_swap_append {α : Type} (A B C : List α) :
    (A ++ (B ++ C)).Perm (B ++ (A ++ C)) := by
  have h1 : (A ++ (B ++ C)) = (A ++ B) ++ C := by rw [List.append_assoc]
  have h2 : ((A ++ B) ++ C).Perm ((B ++ A) ++ C) :=
    (List.perm_append_comm).append_right C
  have h3 : (B ++ A) ++ C = B ++ (A ++ C) := by rw [List.append_assoc]
  rw [h1, ← h3]
  exact h2

theorem stored_pairs_go_perm :
    ∀ (ks : List (K × V)) (cs : List (BNode K V)),
      cs.length = ks.length + 1 →
      (∀ c ∈ cs, (stored_pairs c).Perm (all_pairs c)) →
      (stored_pairs_go ks cs).Perm (ks ++ (cs.map all_pairs).flatten) := by
  intro ks
  induction ks with
  | nil =>
    intro cs hlen hperm
    match cs with
    | [] => simp at hlen
    | c :: cs' =>
      have hnil : cs' = [] := by simpa using hlen
      subst hnil
      rw [stored_pairs_go]
      simpa using hperm c (by simp)
  | cons kv tl ih =>
    intro cs hlen hperm
    match cs with
    | [] => simp at hlen
    | c :: cs' =>
      rw [stored_pairs_go]
      refine List.Perm.trans List.perm_middle ?_
      refine List.Perm.trans (List.Perm.cons kv (List.Perm.append (hperm c (by simp))
        (ih cs' (by simpa using hlen) (fun d hd => hperm d (by simp [hd]))))) ?_
      refine List.Perm.trans (List.Perm.cons kv (perm_swap_append _ _ _)) ?_
      have heq : kv :: (tl ++ (all_pairs c ++ (cs'.map all_pairs).flatten)) =
          (kv :: tl) ++ ((c :: cs').map all_pairs).flatten := by
        simp [List.append_assoc]
      exact heq ▸ List.Perm.refl _

theorem stored_pairs_perm (t : BNode K V) (hsh : good_shape t) :
    (stored_pairs t).Perm (all_pairs t) := by
  induction t using BNode.inductionOn with
  | h l ks cs ih =>
    rw [good_shape_iff] at hsh
    rw [stored_pairs, all_pairs_eq]
    cases l with
    | true =>
      have hcs : cs = [] := by simpa using hsh.1
      subst hcs
      simp
    | false =>
      have hlen : cs.length = ks.length + 1 := by simpa using hsh.1
      simp only [Bool.false_eq_true, if_false]
      exact stored_pairs_go_perm ks cs hlen (fun c hc => ih c hc (hsh.2 c hc))

end CompleteBTree

open CompleteBTree in
unseal insert_non_full in
/-- C4 (counterexample): the claimed invariant "every node holds
between 2 and 5 keys" already fails after a single insert into an
empty tree — the root then holds exactly one key.  (The source never
imposes the minimum on the root.) -/
theorem C4_min_bound_fails_at_root :
    ¬ every_node (fun n => 2 ≤ n ∧ n ≤ 5) (build [((10 : Nat), (1 : Nat))]) := by
  intro h
  have heq : build [((10 : Nat), (1 : Nat))] = BNode.node true [(10, 1)] [] := by rfl
  rw [heq, every_node_iff] at h
  exact absurd h.1.1 (by decide)

open CompleteBTree in
/-- C4 (amended): in every `CompleteBTree` state reachable by inserts
from empty, every node holds at most `MAX_KEYS = 5` keys and every
non-root node holds between `MIN_KEYS = 2` and 5 keys; only the root is
exempt from the minimum (it may hold 0 to 5 keys). -/
theorem C4_amended_node_bounds {K V : Type} [LinearOrder K] (l : List (K × V)) :
    every_node (fun n => n ≤ 5) (build l) ∧
    ∀ c ∈ (build l).nchildren, every_node (fun n => 2 ≤ n ∧ n ≤ 5) c :=
  build_bounds l

open CompleteBTree in
/-- C5: in every `CompleteBTree` state reachable by inserts from empty
and for any inclusive bounds `[lo, hi]`, `range_query` returns exactly
the multiset of values obtained by brute-force filtering all stored
key/value pairs by `lo ≤ key ∧ key ≤ hi` (order differs — the query
visits each node's keys before its children — hence multiset equality,
stated as a list permutation). -/
theorem C5_range_query_is_bruteforce_filter {K V : Type} [LinearOrder K]
    (l : List (K × V)) (lo hi : K) :
    (range_query (build l) lo hi).Perm
      (((stored_pairs (build l)).filter
        (fun kv => decide (lo ≤ kv.1 ∧ kv.1 ≤ hi))).map Prod.snd) := by
  have hsh : good_shape (build l) := wfD_good_shape (build l) none none (build_wf l)
  rw [range_query_eq_filter]
  exact List.Perm.map Prod.snd
    (List.Perm.filter _ (stored_pairs_perm (build l) hsh).symm)

/-! ## Serialization helpers (`write_string` / `read_string` /
`write_vector_string` / `read_vector_string`)

A C++ `std::ofstream`/`std::ifstream` byte stream is modelled as a
`List Nat` of bytes; `std::string` payloads are byte lists as well.
`os.write(&len, sizeof(len))` writes the 8 bytes of the 64-bit
`size_t` little-endian; `is.read(&len, sizeof(len))` reads them back.
None of these functions can raise: C++ stream operations only set
stream state, so the model returns plain values. -/

/-- The 8 little-endian bytes of a 64-bit `size_t` value. -/
def write_u64 (n : Nat) : List Nat :=
  [n % 256, n / 256 % 256, n / 256 ^ 2 % 256, n / 256 ^ 3 % 256,
   n / 256 ^ 4 % 256, n / 256 ^ 5 % 256, n / 256 ^ 6 % 256, n / 256 ^ 7 % 256]

/-- Read a 64-bit `size_t` (8 little-endian bytes) from the stream;
`none` models a short stream, where the C++ read fails. -/
def read_u64 : List Nat → Option (Nat × List Nat)
  | b0 :: b1 :: b2 :: b3 :: b4 :: b5 :: b6 :: b7 :: rest =>
    some (b0 + 256 * (b1 + 256 * (b2 + 256 * (b3 + 256 * (b4 + 256 * (b5 + 256 * (b6 + 256 * b7)))))), rest)
  | _ => none

/-- `write_string`: the length as a `size_t`, then (only when the
length is positive) the raw bytes. -/
def write_string (str : List Nat) : List Nat :=
  write_u64 str.length ++ (if 0 < str.length then str else [])

/-- `read_string`: read the length header; only when
`0 < len && len < 1000000` read that many bytes, otherwise
`str.clear()`.  A failed header read (short stream) leaves `len`
indeterminate in the source and is modelled as the empty string with
the stream unconsumed. -/
def read_string (is : List Nat) : List Nat × List Nat :=
  match read_u64 is with
  | none => ([], is)
  | some (len, rest) =>
    if 0 < len ∧ len < 1000000 then (rest.take len, rest.drop len)
    else ([], rest)

/-- `write_vector_string`: the element count as a `size_t`, then each
string in order via `write_string`. -/
def write_vector_string (vec : List (List Nat)) : List Nat :=
  write_u64 vec.length ++ (vec.map write_string).flatten

/-- The loop of `read_vector_string`: read `count` strings in order. -/
def read_strings : Nat → List Nat → List (List Nat) × List Nat
  | 0, is => ([], is)
  | n + 1, is =>
    let p := read_string is
    let q := read_strings n p.2
    (p.1 :: q.1, q.2)

/-- `read_vector_string`: read the count header; only when
`count < 10000` read that many strings, otherwise `vec.clear()`. -/
def read_vector_string (is : List Nat) : List (List Nat) × List Nat :=
  match read_u64 is with
  | none => ([], is)
  | some (count, rest) =>
    if count < 10000 then read_strings count rest
    else ([], rest)

theorem read_u64_write_u64 (n : Nat) (rest : List Nat) (h : n < 2 ^ 64) :
    read_u64 (write_u64 n ++ rest) = some (n, rest) := by
  simp only [write_u64, List.cons_append, List.nil_append, read_u64]
  congr 2
  omega

/-- C8: a header whose length field is at least 1,000,000 makes
`read_string` yield the empty string (consuming only the header), and a
header whose count field is at least 10,000 makes `read_vector_string`
yield the empty list (consuming only the header); neither path can
raise (the model's result type has no error case, mirroring the
non-throwing C++ stream reads). -/
theorem C8_implausible_headers_read_empty :
    (∀ (len : Nat) (rest : List Nat), 1000000 ≤ len → len < 2 ^ 64 →
      read_string (write_u64 len ++ rest) = ([], rest)) ∧
    (∀ (count : Nat) (rest : List Nat), 10000 ≤ count → count < 2 ^ 64 →
      read_vector_string (write_u64 count ++ rest) = ([], rest)) := by
  constructor
  · intro len rest h1 h2
    simp only [read_string, read_u64_write_u64 len rest h2]
    rw [if_neg]
    omega
  · intro count rest h1 h2
    simp only [read_vector_string, read_u64_write_u64 count rest h2]
    rw [if_neg]
    omega

/-- Witness for C8 at the boundary values 1,000,000 and 10,000. -/
theorem C8_implausible_headers_read_empty_witness :
    (1000000 ≤ 1000000 ∧ (1000000 : Nat) < 2 ^ 64 ∧
      read_string (write_u64 1000000 ++ [7, 7]) = ([], [7, 7])) ∧
    (10000 ≤ 10000 ∧ (10000 : Nat) < 2 ^ 64 ∧
      read_vector_string (write_u64 10000 ++ [7, 7]) = ([], [7, 7])) :=
  ⟨⟨le_refl _, by decide,
    C8_implausible_headers_read_empty.1 1000000 [7, 7] (le_refl _) (by decide)⟩,
   ⟨le_refl _, by decide,
    C8_implausible_headers_read_empty.2 10000 [7, 7] (le_refl _) (by decide)⟩⟩

theorem read_string_write_string (s rest : List Nat) (h : s.length < 1000000) :
    read_string (write_string s ++ rest) = (s, rest) := by
  by_cases hs : 0 < s.length
  · have hw : write_string s = write_u64 s.length ++ s := by
      rw [write_string, if_pos hs]
    rw [hw, List.append_assoc]
    simp only [read_string, read_u64_write_u64 s.length (s ++ rest) (by omega)]
    rw [if_pos ⟨hs, h⟩, List.take_left, List.drop_left]
  · have h0 : s = [] := List.eq_nil_of_length_eq_zero (by omega)
    subst h0
    simp only [write_string, List.length_nil, List.append_nil, if_neg hs]
    norm_num [read_string, write_u64, read_u64]

/-- C9: the codec round-trips.  A string shorter than 1,000,000 bytes
(the empty string included) is recovered exactly by `read_string` from
the output of `write_string`, and a list of fewer than 10,000 such
strings is recovered exactly by `read_vector_string` from the output
of `write_vector_string`; the rest of the stream is untouched. -/
theorem C9_codec_round_trip :
    (∀ (s rest : List Nat), s.length < 1000000 →
      read_string (write_string s ++ rest) = (s, rest)) ∧
    (∀ (v : List (List Nat)) (rest : List Nat), v.length < 10000 →
      (∀ s ∈ v, s.length < 1000000) →
      read_vector_string (write_vector_string v ++ rest) = (v, rest)) := by
  have hstrs : ∀ (v : List (List Nat)) (rest : List Nat),
      (∀ s ∈ v, s.length < 1000000) →
      read_strings v.length ((v.map write_string).flatten ++ rest) = (v, rest) := by
    intro v
    induction v with
    | nil => intro rest _; simp [read_strings]
    | cons s tl ih =>
      intro rest hlen
      rw [List.length_cons, read_strings]
      simp only [List.map_cons, List.flatten_cons, List.append_assoc]
      rw [read_string_write_string s _ (hlen s (by simp))]
      rw [ih rest (fun x hx => hlen x (by simp [hx]))]
  constructor
  · exact read_string_write_string
  · intro v rest hv hlen
    rw [write_vector_string, List.append_assoc]
    simp only [read_vector_string,
      read_u64_write_u64 v.length ((v.map write_string).flatten ++ rest) (by omega)]
    rw [if_pos hv]
    exact hstrs v rest hlen

/-- Witness for C9 on a two-string vector (one of them empty). -/
theorem C9_codec_round_trip_witness :
    (([3, 1, 2] : List Nat).length < 1000000 ∧
      read_string (write_string [3, 1, 2] ++ [9]) = ([3, 1, 2], [9])) ∧
    (([[5, 6], []] : List (List Nat)).length < 10000 ∧
      read_vector_string (write_vector_string [[5, 6], []] ++ [9]) = ([[5, 6], []], [9])) :=
  ⟨⟨by decide, C9_codec_round_trip.1 [3, 1, 2] [9] (by decide)⟩,
   ⟨by decide, C9_codec_round_trip.2 [[5, 6], []] [9] (by decide) (by decide)⟩⟩

namespace CompleteBTree

variable {K V : Type} [LinearOrder K]

theorem get?_set_self {α : Type} :
    ∀ (l : List α) (i : Nat) (a : α), i < l.length → (l.set i a).get? i = some a := by
  intro l
  induction l with
  | nil => intro i a h; simp at h
  | cons b tl ih =>
    intro i a h
    match i with
    | 0 => rfl
    | i' + 1 =>
      simp only [List.set]
      rw [List.get?_cons_succ]
      exact ih i' a (by simpa using h)

theorem take_insertIdx_self {α : Type} :
    ∀ (l : List α) (i : Nat) (x : α), i ≤ l.length →
      (l.insertIdx i x).take i = l.take i := by
  intro l
  induction l with
  | nil =>
    intro i x h
    simp at h
    subst h
    simp
  | cons a tl ih =>
    intro i x h
    match i with
    | 0 => simp
    | i' + 1 =>
      rw [List.insertIdx_succ_cons, List.take_succ_cons, List.take_succ_cons,
        ih i' x (by simpa using h)]

theorem drop_insertIdx_self {α : Type} :
    ∀ (l : List α) (i : Nat) (x : α), i ≤ l.length →
      (l.insertIdx i x).drop i = x :: l.drop i := by
  intro l
  induction l with
  | nil =>
    intro i x h
    simp at h
    subst h
    simp
  | cons a tl ih =>
    intro i x h
    match i with
    | 0 => simp
    | i' + 1 =>
      rw [List.insertIdx_succ_cons, List.drop_succ_cons, List.drop_succ_cons]
      exact ih i' x (by simpa using h)

theorem take_insertIdx_succ {α : Type} :
    ∀ (l : List α) (i : Nat) (x : α), i ≤ l.length →
      (l.insertIdx i x).take (i + 1) = l.take i ++ [x] := by
  intro l
  induction l with
  | nil =>
    intro i x h
    simp at h
    subst h
    simp
  | cons a tl ih =>
    intro i x h
    match i with
    | 0 => simp
    | i' + 1 =>
      rw [List.insertIdx_succ_cons, List.take_succ_cons, List.take_succ_cons,
        ih i' x (by simpa using h)]
      simp

theorem drop_insertIdx_succ {α : Type} :
    ∀ (l : List α) (i : Nat) (x : α), i ≤ l.length →
      (l.insertIdx i x).drop (i + 1) = l.drop i := by
  intro l
  induction l with
  | nil =>
    intro i x h
    simp at h
    subst h
    simp
  | cons a tl ih =>
    intro i x h
    match i with
    | 0 => simp
    | i' + 1 =>
      rw [List.insertIdx_succ_cons, List.drop_succ_cons, List.drop_succ_cons]
      exact ih i' x (by simpa using h)

theorem search_node_hit (l : Bool) (ks : List (K × V)) (cs : List (BNode K V)) (key : K)
    (kv : K × V) (hg : ks.get? (find_key_position ks key) = some kv) (he : kv.1 = key) :
    search_node (BNode.node l ks cs) key = some kv.2 := by
  conv_lhs => rw [search_node]
  split
  · rename_i kv' heq
    rw [hg] at heq
    injection heq with heq
    subst heq
    rw [if_pos he]
  · rename_i heq
    rw [hg] at heq
    exact Option.noConfusion heq

theorem search_node_descend (ks : List (K × V)) (cs : List (BNode K V)) (key : K)
    (c : BNode K V)
    (hmiss : ∀ kv, ks.get? (find_key_position ks key) = some kv → kv.1 ≠ key)
    (hc : cs.get? (find_key_position ks key) = some c) :
    search_node (BNode.node false ks cs) key = search_node c key := by
  conv_lhs => rw [search_node]
  split
  · rename_i kv heq
    rw [if_neg (hmiss kv heq)]
    simp only [Bool.false_eq_true, if_false]
    split
    · rename_i c' heq1
      rw [hc] at heq1
      injection heq1 with heq1
      subst heq1
      rfl
    · rename_i heq1
      rw [hc] at heq1
      exact Option.noConfusion heq1
  · rename_i heq
    simp only [Bool.false_eq_true, if_false]
    split
    · rename_i c' heq1
      rw [hc] at heq1
      injection heq1 with heq1
      subst heq1
      rfl
    · rename_i heq1
      rw [hc] at heq1
      exact Option.noConfusion heq1

/-- The key occurs nowhere in the subtree (the situation of a properly
fresh identifier, e.g. a newly generated user id). -/
def fresh {K V : Type} (key : K) : BNode K V → Prop
  | .node _ ks cs => (∀ kv ∈ ks, kv.1 ≠ key) ∧ ∀ c ∈ cs, fresh key c
termination_by t => sizeOf t
decreasing_by exact sizeOf_lt_of_mem_children (by assumption)

theorem fresh_iff (key : K) (l : Bool) (ks : List (K × V)) (cs : List (BNode K V)) :
    fresh key (BNode.node l ks cs) ↔
      (∀ kv ∈ ks, kv.1 ≠ key) ∧ ∀ c ∈ cs, fresh key c := by
  rw [fresh]

theorem fresh_emptyTree (key : K) : fresh key (emptyTree : BNode K V) := by
  rw [emptyTree, fresh_iff]
  exact ⟨by simp, by simp⟩

/-- Both halves of a split child stay free of a key the child was free
of. -/
theorem fresh_split_pieces {key : K} {cl : Bool} {ckeys : List (K × V)}
    {ccs : List (BNode K V)} (hf : fresh key (BNode.node cl ckeys ccs)) :
    fresh key (BNode.node cl (ckeys.take MIN_KEYS)
      (if cl then ccs else ccs.take (MIN_KEYS + 1))) ∧
    fresh key (BNode.node cl (ckeys.drop (MIN_KEYS + 1))
      (if cl then [] else ccs.drop (MIN_KEYS + 1))) := by
  rw [fresh_iff] at hf
  obtain ⟨h1, h2⟩ := hf
  constructor
  · rw [fresh_iff]
    refine ⟨fun kv hkv => h1 kv (List.take_subset _ _ hkv), ?_⟩
    intro c hc
    cases cl with
    | true => exact h2 c hc
    | false =>
      simp only [Bool.false_eq_true, if_false] at hc
      exact h2 c (List.take_subset _ _ hc)
  · rw [fresh_iff]
    refine ⟨fun kv hkv => h1 kv (List.drop_subset _ _ hkv), ?_⟩
    intro c hc
    cases cl with
    | true => simp at hc
    | false =>
      simp only [Bool.false_eq_true, if_false] at hc
      exact h2 c (List.drop_subset _ _ hc)

/-- Inserting a key that occurs nowhere in a well-ordered subtree makes
it retrievable: `search_node` run on the result of `insert_non_full`
finds exactly the inserted value. -/
theorem search_insert_non_full (t : BNode K V) (key : K) (value : V) :
    ∀ lo hi, wfD lo hi t → fresh key t →
      search_node (insert_non_full t key value) key = some value := by
  induction t, key, value using insert_non_full.induct with
  | case1 keys children key value =>
    intro lo hi hw hf
    rw [insert_non_full_leaf_eq]
    rw [wfD_iff] at hw
    obtain ⟨hs, hb, hc⟩ := hw
    rw [fresh_iff] at hf
    have hfk : ∀ kv ∈ keys, kv.1 ≠ key := hf.1
    have hui_le : upper_index keys key ≤ keys.length := upper_index_le keys key
    have htake := (@upper_index_take_drop K V _ keys key hs).1
    have hdropk := (@upper_index_take_drop K V _ keys key hs).2
    have htake' : ∀ kv ∈ keys.take (upper_index keys key), kv.1 < key := fun kv hkv =>
      lt_of_le_of_ne (htake kv hkv) (hfk kv (List.take_subset _ _ hkv))
    have hfkp : find_key_position keys key = upper_index keys key :=
      find_key_position_eq_upper hs hfk
    have hkeys' : insert_key keys key value =
        keys.insertIdx (upper_index keys key) (key, value) := by
      rw [insert_key_fresh hfk, hfkp]
    rw [hkeys']
    have hlen' : (keys.insertIdx (upper_index keys key) (key, value)).length =
        keys.length + 1 := by
      rw [List.length_insertIdx _ _ hui_le]
    have hfkp' : find_key_position (keys.insertIdx (upper_index keys key) (key, value)) key =
        upper_index keys key := by
      refine fkp_eq_of_between (by omega) ?_ ?_
      · rw [take_insertIdx_self keys (upper_index keys key) (key, value) hui_le]
        exact htake'
      · rw [drop_insertIdx_self keys (upper_index keys key) (key, value) hui_le]
        intro kv hkv
        rcases List.mem_cons.mp hkv with rfl | hkv
        · exact le_refl _
        · exact le_of_lt (hdropk kv hkv)
    exact search_node_hit true _ children key (key, value)
      (by rw [hfkp']; exact get?_insertIdx_self keys (key, value) _ hui_le) rfl
  | case5 leaf keys children key value hleaf i hd =>
    intro lo hi hw hf
    rw [Bool.not_eq_true] at hleaf
    subst hleaf
    exfalso
    rw [wfD_iff] at hw
    obtain ⟨hs, hb, hk⟩ := hw
    simp only [Bool.false_eq_true, if_false] at hk
    have hlen := wfKids_length hk
    have hdx : children.get? (upper_index keys key) = none := hd
    have h1 := List.get?_eq_none.mp hdx
    have h2 := upper_index_le keys key
    omega
  | case4 leaf keys children key value hleaf i c hd hnf ih =>
    intro lo hi hw hf
    rw [Bool.not_eq_true] at hleaf
    subst hleaf
    rw [insert_non_full_notfull_eq keys children key value c hd hnf]
    rw [wfD_iff] at hw
    obtain ⟨hs, hb, hk⟩ := hw
    simp only [Bool.false_eq_true, if_false] at hk
    rw [fresh_iff] at hf
    have hfk : ∀ kv ∈ keys, kv.1 ≠ key := hf.1
    have hdx : children.get? (upper_index keys key) = some c := hd
    have hfkp : find_key_position keys key = upper_index keys key :=
      find_key_position_eq_upper hs hfk
    have hclt : upper_index keys key < children.length := (List.get?_eq_some.mp hdx).1
    have hmiss1 : ∀ kv, keys.get? (find_key_position keys key) = some kv → kv.1 ≠ key := by
      intro kv hg
      exact hfk kv (List.get?_mem hg)
    have hc1 : (children.set (upper_index keys key) (insert_non_full c key value)).get?
        (find_key_position keys key) = some (insert_non_full c key value) := by
      rw [hfkp]
      exact get?_set_self children (upper_index keys key) _ hclt
    rw [search_node_descend keys _ key (insert_non_full c key value) hmiss1 hc1]
    exact ih _ _ (wfKids_get hk hdx) (hf.2 c (List.get?_mem hdx))
  | case2 leaf keys children key value hleaf i c hd hfull n1 i1 c1 hd1 ih =>
    intro lo hi hw hf
    rw [Bool.not_eq_true] at hleaf
    subst hleaf
    rw [insert_non_full_full_some_eq keys children key value c c1 hd hfull hd1]
    rw [wfD_iff] at hw
    obtain ⟨hs, hb, hk⟩ := hw
    simp only [Bool.false_eq_true, if_false] at hk
    rw [fresh_iff] at hf
    have hfk : ∀ kv ∈ keys, kv.1 ≠ key := hf.1
    obtain ⟨cl, ckeys, ccs⟩ := c
    have hfull' : ckeys.length = MAX_KEYS := hfull
    have hdx : children.get? (upper_index keys key) = some (BNode.node cl ckeys ccs) := hd
    obtain ⟨mid, hm, hsplit⟩ := split_child_parts hdx hfull'
    have hui_le : upper_index keys key ≤ keys.length := upper_index_le keys key
    have hclt : upper_index keys key < children.length := (List.get?_eq_some.mp hdx).1
    have hcw := wfKids_get hk hdx
    have hcwd := hcw
    rw [wfD_iff] at hcwd
    obtain ⟨hcs, hcb, hck⟩ := hcwd
    obtain ⟨hml, hmh⟩ := mid_strict_bounds hcs (fun kv hkv => hcb kv hkv) hm hfull'
    obtain ⟨hA, hB⟩ := split_piece_wf hcw hm hfull'
    have hcf : fresh key (BNode.node cl ckeys ccs) := hf.2 _ (List.get?_mem hdx)
    have hmidne : mid.1 ≠ key :=
      ((fresh_iff key cl ckeys ccs).mp hcf).1 mid (List.get?_mem hm)
    obtain ⟨hfA, hfB⟩ := fresh_split_pieces hcf
    have htake := (@upper_index_take_drop K V _ keys key hs).1
    have hdropk := (@upper_index_take_drop K V _ keys key hs).2
    have htake' : ∀ kv ∈ keys.take (upper_index keys key), kv.1 < key := fun kv hkv =>
      lt_of_le_of_ne (htake kv hkv) (hfk kv (List.take_subset _ _ hkv))
    have htakem : ∀ kv ∈ keys.take (upper_index keys key), kv.1 < mid.1 :=
      take_lt_of_lo_at hs hui_le hml
    have hdropm : ∀ kv ∈ keys.drop (upper_index keys key), mid.1 < kv.1 :=
      drop_gt_of_hi_at hs hmh
    have hfreshm : ∀ kv ∈ keys, kv.1 ≠ mid.1 := by
      intro kv hkv
      rw [← List.take_append_drop (upper_index keys key) keys, List.mem_append] at hkv
      rcases hkv with hkv | hkv
      · exact ne_of_lt (htakem kv hkv)
      · exact ne_of_gt (hdropm kv hkv)
    have hfkpm : find_key_position keys mid.1 = upper_index keys key :=
      fkp_eq_of_between hui_le htakem (fun kv hkv => le_of_lt (hdropm kv hkv))
    have hkeys' : insert_key keys mid.1 mid.2 =
        keys.insertIdx (upper_index keys key) (mid.1, mid.2) := by
      rw [insert_key_fresh hfreshm, hfkpm]
    have hd1x : ((children.set (upper_index keys key)
          (BNode.node cl (ckeys.take MIN_KEYS)
            (if cl then ccs else ccs.take (MIN_KEYS + 1)))).insertIdx
          (upper_index keys key + 1)
          (BNode.node cl (ckeys.drop (MIN_KEYS + 1))
            (if cl then [] else ccs.drop (MIN_KEYS + 1)))).get?
        (step_index (BNode.node false
            (keys.insertIdx (upper_index keys key) (mid.1, mid.2))
            ((children.set (upper_index keys key)
              (BNode.node cl (ckeys.take MIN_KEYS)
                (if cl then ccs else ccs.take (MIN_KEYS + 1)))).insertIdx
              (upper_index keys key + 1)
              (BNode.node cl (ckeys.drop (MIN_KEYS + 1))
                (if cl then [] else ccs.drop (MIN_KEYS + 1)))))
          (upper_index keys key) key) = some c1 := by
      have h0 : (split_child (BNode.node false keys children) (upper_index keys key)).nchildren.get?
          (step_index (split_child (BNode.node false keys children) (upper_index keys key))
            (upper_index keys key) key) = some c1 := hd1
      rw [hsplit] at h0
      dsimp only [BNode.nchildren] at h0
      rwa [hkeys'] at h0
    rw [hsplit]
    dsimp only [BNode.nleaf, BNode.nkeys, BNode.nchildren]
    rw [hkeys']
    have hstep : step_index (BNode.node false
        (keys.insertIdx (upper_index keys key) (mid.1, mid.2))
        ((children.set (upper_index keys key)
          (BNode.node cl (ckeys.take MIN_KEYS)
            (if cl then ccs else ccs.take (MIN_KEYS + 1)))).insertIdx
          (upper_index keys key + 1)
          (BNode.node cl (ckeys.drop (MIN_KEYS + 1))
            (if cl then [] else ccs.drop (MIN_KEYS + 1)))))
        (upper_index keys key) key =
        if mid.1 < key then upper_index keys key + 1 else upper_index keys key := by
      rw [step_index]
      dsimp only [BNode.nkeys]
      rw [get?_insertIdx_self keys (mid.1, mid.2) _ hui_le]
    have hgi := get?_set_insertIdx children (upper_index keys key)
      (BNode.node cl (ckeys.take MIN_KEYS) (if cl then ccs else ccs.take (MIN_KEYS + 1)))
      (BNode.node cl (ckeys.drop (MIN_KEYS + 1)) (if cl then [] else ccs.drop (MIN_KEYS + 1)))
      hclt
    have hlen2 : (keys.insertIdx (upper_index keys key) (mid.1, mid.2)).length =
        keys.length + 1 := by
      rw [List.length_insertIdx _ _ hui_le]
    have hlen3 : ((children.set (upper_index keys key)
        (BNode.node cl (ckeys.take MIN_KEYS)
          (if cl then ccs else ccs.take (MIN_KEYS + 1)))).insertIdx
        (upper_index keys key + 1)
        (BNode.node cl (ckeys.drop (MIN_KEYS + 1))
          (if cl then [] else ccs.drop (MIN_KEYS + 1)))).length = children.length + 1 := by
      rw [List.length_insertIdx _ _ (by simp only [List.length_set]; omega)]
      simp only [List.length_set]
    rw [hstep] at hd1x ⊢
    by_cases hckey : mid.1 < key
    · rw [if_pos hckey] at hd1x ⊢
      rw [hgi.2] at hd1x
      injection hd1x with hd1x
      subst hd1x
      have hfkp' : find_key_position (keys.insertIdx (upper_index keys key) (mid.1, mid.2)) key
          = upper_index keys key + 1 := by
        refine fkp_eq_of_between (by omega) ?_ ?_
        · rw [take_insertIdx_succ keys (upper_index keys key) (mid.1, mid.2) hui_le]
          intro kv hkv
          rcases List.mem_append.mp hkv with hkv | hkv
          · exact htake' kv hkv
          · simp only [List.mem_singleton] at hkv
            subst hkv
            exact hckey
        · rw [drop_insertIdx_succ keys (upper_index keys key) (mid.1, mid.2) hui_le]
          intro kv hkv
          exact le_of_lt (hdropk kv hkv)
      have hmiss2 : ∀ kv, (keys.insertIdx (upper_index keys key) (mid.1, mid.2)).get?
          (find_key_position (keys.insertIdx (upper_index keys key) (mid.1, mid.2)) key) =
            some kv → kv.1 ≠ key := by
        intro kv hg
        rw [hfkp', get?_insertIdx_succ keys (mid.1, mid.2) _ hui_le] at hg
        exact hfk kv (List.get?_mem hg)
      have hc2 : (((children.set (upper_index keys key)
          (BNode.node cl (ckeys.take MIN_KEYS)
            (if cl then ccs else ccs.take (MIN_KEYS + 1)))).insertIdx
          (upper_index keys key + 1)
          (BNode.node cl (ckeys.drop (MIN_KEYS + 1))
            (if cl then [] else ccs.drop (MIN_KEYS + 1)))).set (upper_index keys key + 1)
          (insert_non_full (BNode.node cl (ckeys.drop (MIN_KEYS + 1))
            (if cl then [] else ccs.drop (MIN_KEYS + 1))) key value)).get?
          (find_key_position (keys.insertIdx (upper_index keys key) (mid.1, mid.2)) key) =
          some (insert_non_full (BNode.node cl (ckeys.drop (MIN_KEYS + 1))
            (if cl then [] else ccs.drop (MIN_KEYS + 1))) key value) := by
        rw [hfkp']
        exact get?_set_self _ _ _ (by omega)
      rw [search_node_descend _ _ key _ hmiss2 hc2]
      exact ih _ _ hB hfB
    · rw [if_neg hckey] at hd1x ⊢
      rw [hgi.1] at hd1x
      injection hd1x with hd1x
      subst hd1x
      have hklt : key < mid.1 := lt_of_le_of_ne (not_lt.mp hckey) (Ne.symm hmidne)
      have hfkp' : find_key_position (keys.insertIdx (upper_index keys key) (mid.1, mid.2)) key
          = upper_index keys key := by
        refine fkp_eq_of_between (by omega) ?_ ?_
        · rw [take_insertIdx_self keys (upper_index keys key) (mid.1, mid.2) hui_le]
          exact htake'
        · rw [drop_insertIdx_self keys (upper_index keys key) (mid.1, mid.2) hui_le]
          intro kv hkv
          rcases List.mem_cons.mp hkv with rfl | hkv
          · exact le_of_lt hklt
          · exact le_of_lt (hdropk kv hkv)
      have hmiss2 : ∀ kv, (keys.insertIdx (upper_index keys key) (mid.1, mid.2)).get?
          (find_key_position (keys.insertIdx (upper_index keys key) (mid.1, mid.2)) key) =
            some kv → kv.1 ≠ key := by
        intro kv hg
        rw [hfkp', get?_insertIdx_self keys (mid.1, mid.2) _ hui_le] at hg
        injection hg with hg
        subst hg
        exact hmidne
      have hc2 : (((children.set (upper_index keys key)
          (BNode.node cl (ckeys.take MIN_KEYS)
            (if cl then ccs else ccs.take (MIN_KEYS + 1)))).insertIdx
          (upper_index keys key + 1)
          (BNode.node cl (ckeys.drop (MIN_KEYS + 1))
            (if cl then [] else ccs.drop (MIN_KEYS + 1)))).set (upper_index keys key)
          (insert_non_full (BNode.node cl (ckeys.take MIN_KEYS)
            (if cl then ccs else ccs.take (MIN_KEYS + 1))) key value)).get?
          (find_key_position (keys.insertIdx (upper_index keys key) (mid.1, mid.2)) key) =
          some (insert_non_full (BNode.node cl (ckeys.take MIN_KEYS)
            (if cl then ccs else ccs.take (MIN_KEYS + 1))) key value) := by
        rw [hfkp']
        exact get?_set_self _ _ _ (by omega)
      rw [search_node_descend _ _ key _ hmiss2 hc2]
      exact ih _ _ hA hfA
  | case3 leaf keys children key value hleaf i c hd hfull n1 i1 hd1 =>
    intro lo hi hw hf
    rw [Bool.not_eq_true] at hleaf
    subst hleaf
    obtain ⟨cl, ckeys, ccs⟩ := c
    have hfull' : ckeys.length = MAX_KEYS := hfull
    have hdx : children.get? (upper_index keys key) = some (BNode.node cl ckeys ccs) := hd
    obtain ⟨mid, hm, hsplit⟩ := split_child_parts hdx hfull'
    have hclt : upper_index keys key < children.length := (List.get?_eq_some.mp hdx).1
    have hd1x : (split_child (BNode.node false keys children) (upper_index keys key)).nchildren.get?
        (step_index (split_child (BNode.node false keys children) (upper_index keys key))
          (upper_index keys key) key) = none := hd1
    rw [hsplit] at hd1x
    dsimp only [BNode.nchildren] at hd1x
    exfalso
    have hlen : ((children.set (upper_index keys key)
        (BNode.node cl (ckeys.take MIN_KEYS)
          (if cl then ccs else ccs.take (MIN_KEYS + 1)))).insertIdx
        (upper_index keys key + 1)
        (BNode.node cl (ckeys.drop (MIN_KEYS + 1))
          (if cl then [] else ccs.drop (MIN_KEYS + 1)))).length = children.length + 1 := by
      rw [List.length_insertIdx _ _ (by simp only [List.length_set]; omega)]
      simp only [List.length_set]
    have hnone := List.get?_eq_none.mp hd1x
    rcases step_index_or (BNode.node false (insert_key keys mid.1 mid.2)
        ((children.set (upper_index keys key)
          (BNode.node cl (ckeys.take MIN_KEYS)
            (if cl then ccs else ccs.take (MIN_KEYS + 1)))).insertIdx
          (upper_index keys key + 1)
          (BNode.node cl (ckeys.drop (MIN_KEYS + 1))
            (if cl then [] else ccs.drop (MIN_KEYS + 1)))))
        (upper_index keys key) key with hstep | hstep <;>
      rw [hstep] at hnone <;> omega

/-- The public `insert` (root pre-split included) makes a key that was
absent from a well-ordered tree retrievable via `search_node`. -/
theorem search_insert_fresh (t : BNode K V) (key : K) (value : V)
    (hw : wfD none none t) (hf : fresh key t) :
    search_node (insert t key value) key = some value := by
  rw [insert]
  by_cases hfull : t.nkeys.length = MAX_KEYS
  · rw [if_pos hfull]
    obtain ⟨l, ks, cs⟩ := t
    have hfull' : ks.length = MAX_KEYS := hfull
    have hc0 : ([BNode.node l ks cs] : List (BNode K V)).get? 0 = some (BNode.node l ks cs) := rfl
    obtain ⟨mid, hm, hsplit⟩ :=
      @split_child_parts K V _ false [] [BNode.node l ks cs] 0 l ks cs hc0 hfull'
    rw [hsplit]
    rw [show insert_key ([] : List (K × V)) mid.1 mid.2 = [(mid.1, mid.2)] from rfl]
    obtain ⟨hA, hB⟩ := split_piece_wf hw hm hfull'
    obtain ⟨hfA, hfB⟩ := fresh_split_pieces hf
    have hmidne : mid.1 ≠ key :=
      ((fresh_iff key l ks cs).mp hf).1 mid (List.get?_mem hm)
    have hl : (([BNode.node l ks cs].set 0
        (BNode.node l (ks.take MIN_KEYS) (if l then cs else cs.take (MIN_KEYS + 1)))).insertIdx
          (0 + 1)
          (BNode.node l (ks.drop (MIN_KEYS + 1)) (if l then [] else cs.drop (MIN_KEYS + 1)))) =
        [BNode.node l (ks.take MIN_KEYS) (if l then cs else cs.take (MIN_KEYS + 1)),
         BNode.node l (ks.drop (MIN_KEYS + 1)) (if l then [] else cs.drop (MIN_KEYS + 1))] := rfl
    rw [hl]
    refine search_insert_non_full _ key value none none ?_ ?_
    · rw [wfD_iff]
      refine ⟨by simp, by intro kv _; exact ⟨trivial, trivial⟩, ?_⟩
      simp only [Bool.false_eq_true, if_false]
      simp only [wfKids]
      exact ⟨hA, hB⟩
    · rw [fresh_iff]
      constructor
      · intro kv hkv
        simp only [List.mem_singleton] at hkv
        subst hkv
        exact hmidne
      · intro c hcmem
        rcases List.mem_cons.mp hcmem with rfl | hcmem
        · exact hfA
        · rcases List.mem_cons.mp hcmem with rfl | hcmem
          · exact hfB
          · simp at hcmem
  · rw [if_neg hfull]
    exact search_insert_non_full t key value none none hw hf

theorem wfD_emptyTree {K V : Type} [LinearOrder K] :
    ∀ lo hi : Option K, wfD lo hi (emptyTree : BNode K V) := by
  intro lo hi
  rw [emptyTree, wfD_iff]
  exact ⟨by simp, by simp, by simp⟩

end CompleteBTree

/-! ### Data models and the persistent database
(`complete_database.h`, sections 3 and 4). `time_t`, `int` and the
single `float` field are modelled as `Int`; the operations verified
below only store and copy them. -/

inductive ExerciseDifficulty where
  | BEGINNER
  | INTERMEDIATE
  | ADVANCED
  | EXPERT

inductive ExerciseType where
  | STRENGTH
  | CARDIO
  | FLEXIBILITY
  | BALANCE
  | CORE

structure Exercise where
  id : String
  name : String
  type : ExerciseType
  difficulty : ExerciseDifficulty
  description : String
  target_muscles : List String
  calories_per_minute : Int
  prerequisites : List String
  next_exercises : List String
  created_at : Int

structure User where
  id : String
  username : String
  email : String
  password_hash : String
  fitness_level : Int
  experience_points : Int
  completed_exercises : List String
  achievements : List String
  created_at : Int
  last_login : Int

structure Quest where
  id : String
  title : String
  description : String
  priority : Int
  difficulty : Int
  required_exercises : List String
  rewards : List String
  deadline : Int
  completed : Bool

structure WorkoutSession where
  id : String
  user_id : String
  start_time : Int
  end_time : Int
  exercises : List String
  total_calories : Int
  validated : Bool
  form_score : Int

/-- `PersistentFitnessDatabase::HashTableEntry`. -/
structure HashTableEntry where
  key : String
  value : String

/-- `PersistentFitnessDatabase::GraphEdge` (the source fields `from`
and `to` are Lean keywords, hence the underscores). -/
structure GraphEdge where
  from_ : String
  to_ : String
  weight : Int

/-- `PersistentFitnessDatabase::PriorityQueueEntry`. -/
structure PriorityQueueEntry where
  quest : Quest
  priority : Int
  timestamp : Int

/-- The in-memory state of `PersistentFitnessDatabase`: four B-trees,
the email index, the exercise graph edges and the priority snapshot
(file persistence is outside the model). -/
structure PersistentFitnessDatabase where
  exercise_btree : BNode String Exercise
  user_btree : BNode String User
  workout_btree : BNode String WorkoutSession
  quest_btree : BNode String Quest
  email_index : List HashTableEntry
  graph_edges : List GraphEdge
  pq_entries : List PriorityQueueEntry

/-- The comparator of `add_quest`'s `std::sort` call orders by strictly
descending priority; as a non-strict "may precede" relation:
`a` may sit before `b` iff `b.priority <= a.priority`. -/
def pq_le (a b : PriorityQueueEntry) : Bool := decide (b.priority ≤ a.priority)

/-- `PersistentFitnessDatabase::add_quest`: insert the quest into the
quest tree, append a `{quest, quest.priority, time(nullptr)}` snapshot
entry, and re-sort the snapshot by descending priority (`std::sort`
leaves the order of equal priorities unspecified; the stable descending
`mergeSort` realises one of its permitted outcomes). `now` stands for
`time(nullptr)`. -/
def add_quest (db : PersistentFitnessDatabase) (q : Quest) (now : Int) :
    PersistentFitnessDatabase :=
  { db with
    quest_btree := insert db.quest_btree q.id q,
    pq_entries := List.mergeSort (db.pq_entries ++ [⟨q, q.priority, now⟩]) pq_le }

/-- `PersistentFitnessDatabase::get_next_quest`: throw
`"No quests available"` on an empty snapshot, otherwise return the
quest of the back entry and pop it. -/
def get_next_quest (db : PersistentFitnessDatabase) :
    Except String Quest × PersistentFitnessDatabase :=
  match db.pq_entries.getLast? with
  | none => (Except.error "No quests available", db)
  | some entry => (Except.ok entry.quest, { db with pq_entries := db.pq_entries.dropLast })

/-- The `User` record built by `create_user`: the generated id, the
password hash and the two `time(nullptr)` stamps enter as oracle
parameters; the constructor defaults set level 1 and 0 experience. -/
def new_user (username email new_id pass_hash : String) (now : Int) : User :=
  { id := new_id, username := username, email := email, password_hash := pass_hash,
    fitness_level := 1, experience_points := 0, completed_exercises := [],
    achievements := [], created_at := now, last_login := now }

/-- `PersistentFitnessDatabase::create_user`: linear scan of the email
index, throwing `"Email already registered"` on a hit before any
mutation; otherwise insert the new user into the user tree, append the
email-index entry and return the generated id. -/
def create_user (db : PersistentFitnessDatabase) (username email : String)
    (new_id pass_hash : String) (now : Int) :
    Except String String × PersistentFitnessDatabase :=
  if db.email_index.any (fun entry => entry.key == email) then
    (Except.error "Email already registered", db)
  else
    (Except.ok new_id,
      { db with
        user_btree := insert db.user_btree new_id (new_user username email new_id pass_hash now),
        email_index := db.email_index ++ [⟨email, new_id⟩] })

/-- `PersistentFitnessDatabase::get_user_by_email`: first email-index
entry with a matching key, then a tree lookup of the stored user id;
`"User not found with email: ..."` when the scan misses. -/
def get_user_by_email (db : PersistentFitnessDatabase) (email : String) :
    Except String User :=
  match db.email_index.find? (fun entry => entry.key == email) with
  | some entry => search db.user_btree entry.value
  | none => Except.error ("User not found with email: " ++ email)

/-- A database state with every container empty. -/
def empty_db : PersistentFitnessDatabase :=
  { exercise_btree := emptyTree, user_btree := emptyTree, workout_btree := emptyTree,
    quest_btree := emptyTree, email_index := [], graph_edges := [], pq_entries := [] }

theorem pq_le_trans : ∀ a b c : PriorityQueueEntry,
    pq_le a b → pq_le b c → pq_le a c := by
  intro a b c hab hbc
  simp only [pq_le, decide_eq_true_eq] at hab hbc ⊢
  omega

theorem pq_le_total : ∀ a b : PriorityQueueEntry, pq_le a b || pq_le b a := by
  intro a b
  simp only [pq_le, Bool.or_eq_true, decide_eq_true_eq]
  omega

/-- A quest with the given id and priority and neutral remaining
fields. -/
def demo_quest (i : String) (p : Int) : Quest :=
  { id := i, title := "", description := "", priority := p, difficulty := 1,
    required_exercises := [], rewards := [], deadline := 0, completed := false }

/-- The state after adding quests with priorities 1, 5 and 3 to the
empty database. -/
def demo_db6 : PersistentFitnessDatabase :=
  add_quest (add_quest (add_quest empty_db (demo_quest "Q1" 1) 0) (demo_quest "Q5" 5) 0)
    (demo_quest "Q3" 3) 0

unseal List.mergeSort List.merge in
/-- C6: after every `add_quest` the priority snapshot is sorted in
descending priority order; on a descending-sorted snapshot,
`get_next_quest` returns the quest of the back entry and removes that
entry, and the back entry carries the lowest priority of the whole
snapshot; and concretely, after adding quests with priorities
`[1, 5, 3]` to the empty database the first `get_next_quest` returns
the priority-1 quest. -/
theorem C6_descending_snapshot_and_back_pop :
    (∀ (db : PersistentFitnessDatabase) (q : Quest) (now : Int),
      List.Pairwise (fun a b => b.priority ≤ a.priority) (add_quest db q now).pq_entries) ∧
    (∀ (db : PersistentFitnessDatabase) (e : PriorityQueueEntry),
      db.pq_entries.getLast? = some e →
      List.Pairwise (fun a b => b.priority ≤ a.priority) db.pq_entries →
      (get_next_quest db).1 = Except.ok e.quest ∧
      (get_next_quest db).2.pq_entries = db.pq_entries.dropLast ∧
      ∀ e' ∈ db.pq_entries, e.priority ≤ e'.priority) ∧
    ((get_next_quest demo_db6).1 = Except.ok (demo_quest "Q1" 1) ∧
      (demo_quest "Q1" 1).priority = 1) := by
  refine ⟨?_, ?_, ?_, ?_⟩
  · intro db q now
    have h := List.sorted_mergeSort pq_le_trans pq_le_total
      (db.pq_entries ++ [⟨q, q.priority, now⟩])
    refine List.Pairwise.imp ?_ h
    intro a b hab
    exact of_decide_eq_true hab
  · intro db e hlast hsorted
    obtain ⟨ys, hys⟩ := List.getLast?_eq_some_iff.mp hlast
    have hgnq : get_next_quest db =
        (Except.ok e.quest, { db with pq_entries := db.pq_entries.dropLast }) := by
      rw [get_next_quest, hlast]
    refine ⟨by rw [hgnq], by rw [hgnq], ?_⟩
    intro e' he'
    rw [hys] at hsorted he'
    rw [List.pairwise_append] at hsorted
    rcases List.mem_append.mp he' with h1 | h1
    · exact hsorted.2.2 e' h1 e (by simp)
    · simp only [List.mem_singleton] at h1
      subst h1
      exact le_refl _
  · rfl
  · rfl

def c6w_entry : PriorityQueueEntry := ⟨demo_quest "QW" 2, 2, 0⟩

def c6w_db : PersistentFitnessDatabase := { empty_db with pq_entries := [c6w_entry] }

/-- Witness for C6 on a one-entry snapshot. -/
theorem C6_descending_snapshot_and_back_pop_witness :
    (get_next_quest c6w_db).1 = Except.ok c6w_entry.quest ∧
    (get_next_quest c6w_db).2.pq_entries = c6w_db.pq_entries.dropLast ∧
    ∀ e' ∈ c6w_db.pq_entries, c6w_entry.priority ≤ e'.priority :=
  C6_descending_snapshot_and_back_pop.2.1 c6w_db c6w_entry rfl
    (by simp [c6w_db, empty_db])

/-- C10: on an empty snapshot `get_next_quest` reports
`"No quests available"` and returns the state unchanged; on a
non-empty snapshot it removes exactly the last snapshot entry, returns
that entry's quest, and leaves the four trees, the email index and the
graph edges untouched. -/
theorem C10_get_next_quest_frame :
    ∀ db : PersistentFitnessDatabase,
      (db.pq_entries = [] →
        get_next_quest db = (Except.error "No quests available", db)) ∧
      (db.pq_entries ≠ [] →
        ∃ e, db.pq_entries.getLast? = some e ∧
          db.pq_entries = db.pq_entries.dropLast ++ [e] ∧
          (get_next_quest db).1 = Except.ok e.quest ∧
          (get_next_quest db).2.pq_entries = db.pq_entries.dropLast ∧
          (get_next_quest db).2.exercise_btree = db.exercise_btree ∧
          (get_next_quest db).2.user_btree = db.user_btree ∧
          (get_next_quest db).2.workout_btree = db.workout_btree ∧
          (get_next_quest db).2.quest_btree = db.quest_btree ∧
          (get_next_quest db).2.email_index = db.email_index ∧
          (get_next_quest db).2.graph_edges = db.graph_edges) := by
  intro db
  constructor
  · intro hnil
    rw [get_next_quest, hnil]
    rfl
  · intro hne
    obtain ⟨e, hlast⟩ : ∃ e, db.pq_entries.getLast? = some e := by
      cases h : db.pq_entries.getLast? with
      | none => exact absurd (List.getLast?_eq_none_iff.mp h) hne
      | some e => exact ⟨e, rfl⟩
    have hgnq : get_next_quest db =
        (Except.ok e.quest, { db with pq_entries := db.pq_entries.dropLast }) := by
      rw [get_next_quest, hlast]
    obtain ⟨ys, hys⟩ := List.getLast?_eq_some_iff.mp hlast
    refine ⟨e, hlast, ?_, by rw [hgnq], by rw [hgnq], by rw [hgnq], by rw [hgnq],
      by rw [hgnq], by rw [hgnq], by rw [hgnq], by rw [hgnq]⟩
    rw [hys, List.dropLast_concat]

def c10_entry : PriorityQueueEntry :=
  ⟨{ id := "QX", title := "", description := "", priority := 4, difficulty := 1,
     required_exercises := [], rewards := [], deadline := 0, completed := false }, 4, 0⟩

def c10_db : PersistentFitnessDatabase := { empty_db with pq_entries := [c10_entry] }

/-- Witness for C10: the empty snapshot and a one-entry snapshot. -/
theorem C10_get_next_quest_frame_witness :
    get_next_quest empty_db = (Except.error "No quests available", empty_db) ∧
    (∃ e, c10_db.pq_entries.getLast? = some e ∧
      c10_db.pq_entries = c10_db.pq_entries.dropLast ++ [e] ∧
      (get_next_quest c10_db).1 = Except.ok e.quest ∧
      (get_next_quest c10_db).2.pq_entries = c10_db.pq_entries.dropLast ∧
      (get_next_quest c10_db).2.exercise_btree = c10_db.exercise_btree ∧
      (get_next_quest c10_db).2.user_btree = c10_db.user_btree ∧
      (get_next_quest c10_db).2.workout_btree = c10_db.workout_btree ∧
      (get_next_quest c10_db).2.quest_btree = c10_db.quest_btree ∧
      (get_next_quest c10_db).2.email_index = c10_db.email_index ∧
      (get_next_quest c10_db).2.graph_edges = c10_db.graph_edges) :=
  ⟨(C10_get_next_quest_frame empty_db).1 rfl,
   (C10_get_next_quest_frame c10_db).2 (by simp [c10_db, empty_db])⟩

theorem get_user_by_email_found (db : PersistentFitnessDatabase) (email : String)
    (e : HashTableEntry)
    (hfind : db.email_index.find? (fun entry => entry.key == email) = some e) :
    get_user_by_email db email = search db.user_btree e.value := by
  rw [get_user_by_email, hfind]

/-- C7: `create_user` fails with `"Email already registered"` exactly
when some email-index entry already carries the supplied email, and
then leaves the state unchanged; otherwise it returns the generated id,
inserts the new user into the user tree and appends the email-index
entry, after which `get_user_by_email` retrieves exactly that user
(given the standing ordering invariant of the user tree and a generated
id that does not occur in it). -/
theorem C7_create_user_email_uniqueness :
    ∀ (db : PersistentFitnessDatabase) (username email new_id pass_hash : String) (now : Int),
      ((create_user db username email new_id pass_hash now).1 =
          Except.error "Email already registered" ↔
        ∃ entry ∈ db.email_index, entry.key = email) ∧
      ((∃ entry ∈ db.email_index, entry.key = email) →
        (create_user db username email new_id pass_hash now).2 = db) ∧
      ((∀ entry ∈ db.email_index, entry.key ≠ email) →
        wfD none none db.user_btree →
        fresh new_id db.user_btree →
        (create_user db username email new_id pass_hash now).1 = Except.ok new_id ∧
        (create_user db username email new_id pass_hash now).2.user_btree =
          insert db.user_btree new_id (new_user username email new_id pass_hash now) ∧
        (create_user db username email new_id pass_hash now).2.email_index =
          db.email_index ++ [⟨email, new_id⟩] ∧
        get_user_by_email (create_user db username email new_id pass_hash now).2 email =
          Except.ok (new_user username email new_id pass_hash now)) := by
  intro db username email new_id pass_hash now
  have hany : db.email_index.any (fun entry => entry.key == email) = true ↔
      ∃ entry ∈ db.email_index, entry.key = email := by
    simp only [List.any_eq_true, beq_iff_eq]
  by_cases hdup : db.email_index.any (fun entry => entry.key == email) = true
  · have hstate : create_user db username email new_id pass_hash now =
        (Except.error "Email already registered", db) := by
      rw [create_user, if_pos hdup]
    refine ⟨?_, ?_, ?_⟩
    · rw [hstate]
      exact ⟨fun _ => hany.mp hdup, fun _ => rfl⟩
    · intro _
      rw [hstate]
    · intro hno _ _
      obtain ⟨entry, hmem, hkey⟩ := hany.mp hdup
      exact absurd hkey (hno entry hmem)
  · have hstate : create_user db username email new_id pass_hash now =
        (Except.ok new_id,
          { db with
            user_btree :=
              insert db.user_btree new_id (new_user username email new_id pass_hash now),
            email_index := db.email_index ++ [⟨email, new_id⟩] }) := by
      rw [create_user, if_neg hdup]
    refine ⟨?_, ?_, ?_⟩
    · rw [hstate]
      constructor
      · intro h
        exact Except.noConfusion h
      · intro hex
        exact absurd (hany.mpr hex) hdup
    · intro hex
      exact absurd (hany.mpr hex) hdup
    · intro hno hw hf
      have hfind : (create_user db username email new_id pass_hash now).2.email_index.find?
          (fun entry => entry.key == email) = some ⟨email, new_id⟩ := by
        rw [hstate]
        show (db.email_index ++ [(⟨email, new_id⟩ : HashTableEntry)]).find?
          (fun entry => entry.key == email) = some ⟨email, new_id⟩
        rw [List.find?_append]
        have h1 : db.email_index.find? (fun entry => entry.key == email) = none :=
          List.find?_eq_none.mpr (fun x hx => by simpa using hno x hx)
        rw [h1, List.find?_cons_of_pos _ (by simp)]
        rfl
      refine ⟨by rw [hstate], by rw [hstate], by rw [hstate], ?_⟩
      rw [get_user_by_email_found _ _ _ hfind]
      rw [show (⟨email, new_id⟩ : HashTableEntry).value = new_id from rfl]
      have hub : (create_user db username email new_id pass_hash now).2.user_btree =
          insert db.user_btree new_id (new_user username email new_id pass_hash now) := by
        rw [hstate]
      rw [hub, search, search_insert_fresh db.user_btree new_id
        (new_user username email new_id pass_hash now) hw hf]

/-- Witness for C7: creating a user in the empty database. -/
theorem C7_create_user_email_uniqueness_witness :
    (create_user empty_db "alice" "alice@example.com" "USER_1" "h1" 0).1 =
        Except.ok "USER_1" ∧
    (create_user empty_db "alice" "alice@example.com" "USER_1" "h1" 0).2.user_btree =
      insert empty_db.user_btree "USER_1" (new_user "alice" "alice@example.com" "USER_1" "h1" 0) ∧
    (create_user empty_db "alice" "alice@example.com" "USER_1" "h1" 0).2.email_index =
      empty_db.email_index ++ [⟨"alice@example.com", "USER_1"⟩] ∧
    get_user_by_email (create_user empty_db "alice" "alice@example.com" "USER_1" "h1" 0).2
        "alice@example.com" =
      Except.ok (new_user "alice" "alice@example.com" "USER_1" "h1" 0) :=
  (C7_create_user_email_uniqueness empty_db "alice" "alice@example.com" "USER_1" "h1" 0).2.2
    (by simp [empty_db]) (wfD_emptyTree none none) (fresh_emptyTree "USER_1")

end FitnessDB
